import Mathlib

/-!
Verification of the iterative-improvement/evaluation core of `ai_code.py`
(`AIIterativeDeveloper`): fenced-content validation, evaluation-report
parsing with text fallback, the retry policy at the model-call boundary,
the iteration loop, and the versioned save/load store.

Python strings are modelled as `List Char`; Python `float` scores are
modelled as exact rationals (`Rat`); the external JSON parser
(`json.loads`) and the external Python syntax checker (`compile`) are
parameters of the functions that invoke them; the streamed model reply
is a parameter holding the fully collected reply text.  Filesystem state
is modelled as a map from version number to the contents of the
directory `v<N>`.
-/

/-! ## Basic string helpers (Python `str` operations over `List Char`) -/

/-- Python whitespace for `str.strip` / `\s` (ASCII part; the claims only
involve these characters). -/
def pyIsSpace (c : Char) : Bool :=
  c = ' ' || c = '\t' || c = '\n' || c = '\r' || c = '\x0b' || c = '\x0c'

/-- Python `str.strip()` from the left. -/
def trimLeftPy (s : List Char) : List Char := s.dropWhile pyIsSpace

/-- Python `str.strip()` (both ends). -/
def pyStrip (s : List Char) : List Char :=
  ((trimLeftPy s).reverse.dropWhile pyIsSpace).reverse

/-- Test that `pat` starts `s` (Python `str.startswith`). -/
def hasPrefixSeq : List Char → List Char → Bool
  | [], _ => true
  | _ :: _, [] => false
  | p :: ps, c :: cs => p == c && hasPrefixSeq ps cs

/-- Test that `pat` ends `s` (Python `str.endswith`). -/
def hasSuffixSeq (pat s : List Char) : Bool :=
  hasPrefixSeq pat.reverse s.reverse

/-- Python substring test `pat in s`. -/
def inStr (pat : List Char) : List Char → Bool
  | [] => pat.isEmpty
  | c :: cs => hasPrefixSeq pat (c :: cs) || inStr pat cs

/-- The occurrence predicate behind `inStr`: `pat` occurs contiguously in `s`. -/
def OccursIn (pat s : List Char) : Prop := ∃ a b, s = a ++ pat ++ b

/-- Accumulator for `splitNL`: `cur` is the current piece, reversed. -/
def splitNLAux (cur : List Char) : List Char → List (List Char)
  | [] => [cur.reverse]
  | c :: cs =>
    if c = '\n' then cur.reverse :: splitNLAux [] cs else splitNLAux (c :: cur) cs

/-- Python `str.split('\n')` (keeps empty pieces). -/
def splitNL (s : List Char) : List (List Char) := splitNLAux [] s

/-- Scan for `pyFind`, carrying the index of the head of `s`. -/
def pyFindAux (ch : Char) : List Char → Nat → Int
  | [], _ => -1
  | c :: cs, i => if c = ch then Int.ofNat i else pyFindAux ch cs (i + 1)

/-- Python `str.find(ch)`: index of the first occurrence, `-1` if absent. -/
def pyFind (ch : Char) (s : List Char) : Int := pyFindAux ch s 0

/-- Scan for `pyRFind`, carrying the index of the head of `s` and the
last hit so far. -/
def pyRFindAux (ch : Char) : List Char → Nat → Int → Int
  | [], _, acc => acc
  | c :: cs, i, acc => pyRFindAux ch cs (i + 1) (if c = ch then Int.ofNat i else acc)

/-- Python `str.rfind(ch)`: index of the last occurrence, `-1` if absent. -/
def pyRFind (ch : Char) (s : List Char) : Int := pyRFindAux ch s 0 (-1)

/-- Python slice `s[a:b]` for `0 ≤ a ≤ b` (clamped like Python). -/
def pySlice (s : List Char) (a b : Nat) : List Char := (s.take b).drop a

/-- Python `str.lower()` (ASCII; identity on CJK, as in Python). -/
def lowerStr (s : List Char) : List Char := s.map Char.toLower

/-! ## `AIIterativeDeveloper.validate_code` -/

/-- The required-token checklist of `validate_code`. -/
def required_components : List (List Char) :=
  [("import").toList, ("class").toList, ("def").toList,
   ("\"\"\"").toList, ("try:").toList, ("except").toList]

/-- The deny-list of `validate_code` (`dangerous_imports`). -/
def dangerous_imports : List (List Char) :=
  [("subprocess").toList, ("os.system").toList, ("eval").toList, ("exec").toList]

/-- The fence-marker stripping prelude of `validate_code`: `code.strip()`,
then `code = code[8:]` when the code starts with the 9-character marker
"```python" (the source really slices off only 8 characters), then
`code = code[:-3]` when it ends with "```", then `code.strip()`. -/
def stripMarkers (code : List Char) : List Char :=
  let c1 := pyStrip code
  let c2 := if hasPrefixSeq (("```python").toList) c1 then c1.drop 8 else c1
  let c3 := if hasSuffixSeq (("```").toList) c2 then c2.take (c2.length - 3) else c2
  pyStrip c3

/-- Model of `AIIterativeDeveloper.validate_code`.  `syn` is the external Python
syntax checker (`compile(code, '<string>', 'exec')` succeeding); every
exception inside the `try` is translated to the `False` result the
source's handler produces. -/
def validate_code (syn : List Char → Bool) (code : List Char) : Bool :=
  if code.isEmpty then false
  else
    let c := stripMarkers code
    if (splitNL (pyStrip c)).length < 10 then false
    else if required_components.any (fun comp => !(inStr comp c)) then false
    else if !(syn c) then false
    else if dangerous_imports.any (fun imp => inStr imp c) then false
    else true

/-! Spec-side notions for the structural-validator claim, following the
spec's words (used only to state what the spec asks for, next to what the
code does): strip one whole leading "```python" marker and one trailing
"```" marker, and count non-empty lines. -/

/-- Modelled from the spec: "Strip one leading and one trailing fence
marker if present" — removes the whole 9-character "```python". -/
def spec_strip_fence (code : List Char) : List Char :=
  let c1 := pyStrip code
  let c2 := if hasPrefixSeq (("```python").toList) c1 then c1.drop 9 else c1
  let c3 := if hasSuffixSeq (("```").toList) c2 then c2.take (c2.length - 3) else c2
  pyStrip c3

/-- Modelled from the spec: the number of non-empty lines of a text. -/
def spec_nonempty_lines (s : List Char) : Nat :=
  ((splitNL s).filter (fun l => !l.isEmpty)).length

/-! ## Exact score arithmetic

Python `float` scores are modelled as exact rationals.  Mathlib's `Rat`
arithmetic is built on `Nat.gcd`, which is defined by well-founded
recursion and therefore does not reduce inside the kernel, so the model
carries its own normalized-fraction type `PyRat` whose operations reduce
(its Euclid runs on structural fuel); `PyRat.val` interprets it in `ℚ`
for the order-theoretic lemmas. -/

/-- Euclid's algorithm on structural fuel (`fuel ≥ m` suffices). -/
def gcdFuel : Nat → Nat → Nat → Nat
  | _, 0, n => n
  | 0, _ + 1, n => n
  | f + 1, m + 1, n => gcdFuel f (n % (m + 1)) (m + 1)

/-- Greatest common divisor, reducible by the kernel. -/
def pyGcd (m n : Nat) : Nat := gcdFuel m m n

/-- An exact rational: numerator and (positive, after normalization)
denominator. -/
structure PyRat where
  num : Int
  den : Nat
deriving DecidableEq

/-- Normalizing constructor (`d = 0` never arises in the model). -/
def mkPy (n : Int) (d : Nat) : PyRat :=
  if d = 0 then ⟨0, 1⟩
  else
    let g := pyGcd n.natAbs d
    ⟨n / (g : Int), d / g⟩

/-- Embed a natural number. -/
def pyOfNat (n : Nat) : PyRat := ⟨(n : Int), 1⟩

/-- Addition. -/
def padd (a b : PyRat) : PyRat :=
  mkPy (a.num * (b.den : Int) + b.num * (a.den : Int)) (a.den * b.den)

/-- Division by a natural number (the only division the source
performs: `10 ** k` for a parsed `0.<digits>` and `len(scores)` for the
mean). -/
def pdivNat (a : PyRat) (n : Nat) : PyRat := mkPy a.num (a.den * n)

/-- Python `sum(...)` over a list of scores. -/
def psum (l : List PyRat) : PyRat := l.foldl padd (pyOfNat 0)

/-- Comparison `a <= b` by cross-multiplication. -/
def pyLe (a b : PyRat) : Bool :=
  decide (a.num * (b.den : Int) ≤ b.num * (a.den : Int))

/-- Interpretation in `ℚ`. -/
def PyRat.val (q : PyRat) : Rat := (q.num : Rat) / (q.den : Rat)

/-! ## JSON values and `_validate_evaluation_format` -/

/-- The values `json.loads` can produce.  Numbers are modelled as exact
rationals; JSON `true`/`false` deserialize to Python booleans, which
compare numerically as `1`/`0` in the source's range checks. -/
inductive JValue where
  | jnull : JValue
  | jbool : Bool → JValue
  | jnum : PyRat → JValue
  | jstr : List Char → JValue
  | jarr : List JValue → JValue
  | jobj : List (List Char × JValue) → JValue

/-- Numeric view used by the source's `0 <= x <= 1` comparisons: numbers
compare as themselves, booleans as `0`/`1`; any other value makes the
comparison raise `TypeError`, which the source's handler turns into a
`False` validation result. -/
def asNum : JValue → Option PyRat
  | .jnum q => some q
  | .jbool b => some (pyOfNat (if b then 1 else 0))
  | _ => none

/-- First-match lookup in a field list. -/
def lookupJ : List (List Char × JValue) → List Char → Option JValue
  | [], _ => none
  | (k', v) :: rest, k => if k' = k then some v else lookupJ rest k

/-- Key lookup in a parsed JSON object (`data[key]`; `json.loads`
resolves duplicate keys to the last one, hence the reversal). -/
def objGet (fields : List (List Char × JValue)) (k : List Char) : Option JValue :=
  lookupJ fields.reverse k

/-- Python dict assignment `d[k] = v`: replaces in place, appends if new
(insertion order preserved). -/
def dictSet (k : List Char) (v : PyRat) :
    List (List Char × PyRat) → List (List Char × PyRat)
  | [] => [(k, v)]
  | (k', v') :: rest =>
    if k' = k then (k', v) :: rest else (k', v') :: dictSet k v rest

/-- The five canonical score dimensions. -/
def required_scores : List (List Char) :=
  [("structure").toList, ("style").toList, ("error_handling").toList,
   ("readability").toList, ("performance").toList]

/-- Model of `AIIterativeDeveloper._validate_evaluation_format`.  Shapes on which
the Python checks would raise (`key in data` on a number, indexing a
non-dict, comparing a string with `0`) land in the handler, which
returns `False`; those branches are therefore `false` here. -/
def validate_evaluation_format (data : JValue) : Bool :=
  match data with
  | .jobj fields =>
    match objGet fields (("scores").toList), objGet fields (("total_score").toList),
          objGet fields (("analysis").toList) with
    | some scoresV, some totalV, some analysisV =>
      match scoresV with
      | .jobj sfs =>
        required_scores.all (fun k => (objGet sfs k).isSome) &&
        sfs.all (fun kv => match asNum kv.2 with
          | some q => pyLe (pyOfNat 0) q && pyLe q (pyOfNat 1)
          | none => false) &&
        (match asNum totalV with
          | some q => pyLe (pyOfNat 0) q && pyLe q (pyOfNat 1)
          | none => false) &&
        (match analysisV with
          | .jstr s => decide (10 ≤ s.length)
          | _ => false)
      | _ => false
    | _, _, _ => false
  | _ => false

/-! ## `_extract_scores_from_text`: the regex fallback parse path

The three patterns `([^：\n]+)[:：]\s*(0\.\d+)`, `([^:\n]+):\s*(0\.\d+)`
and `([^=\n]+)\s*=\s*(0\.\d+)` share one shape: a non-empty greedy label
of characters outside an excluded set, a separator character, optional
whitespace, and a score `0.<digits>`.  `matchFrom` reproduces a regex
match attempt at one position (greedy label with backtracking: the
longest label whose remainder completes the pattern wins), and
`findIter` reproduces `re.finditer`'s left-to-right, non-overlapping
scan. -/

/-- One score pattern: the excluded label characters and the admissible
separator characters. -/
structure ScorePattern where
  excl : List Char
  seps : List Char

/-- The source's `score_patterns` list (full-width colon, ASCII colon,
equals sign). -/
def score_patterns : List ScorePattern :=
  [⟨['：', '\n'], [':', '：']⟩, ⟨[':', '\n'], [':']⟩, ⟨['=', '\n'], ['=']⟩]

/-- ASCII digit (`\d` on the texts at issue). -/
def isDigitC (c : Char) : Bool := 48 ≤ c.toNat && c.toNat ≤ 57

/-- After the separator: `\s*` then `0.` then one-or-more digits.
Returns the digit list and the rest of the text. -/
def matchScoreTail (s : List Char) : Option (List Char × List Char) :=
  let s1 := s.dropWhile pyIsSpace
  match s1 with
  | '0' :: '.' :: s2 =>
    let ds := s2.takeWhile isDigitC
    if ds.isEmpty then none else some (ds, s2.drop ds.length)
  | _ => none

/-- Try a label of length `g` (label = first `g` characters of `s`),
then separator, then score tail. -/
def matchWithLabelLen (p : ScorePattern) (s : List Char) (g : Nat) :
    Option (List Char × List Char × List Char) :=
  match s.drop g with
  | [] => none
  | sep :: rest =>
    if p.seps.contains sep then
      match matchScoreTail rest with
      | some (ds, rest') => some (s.take g, ds, rest')
      | none => none
    else none

/-- Greedy backtracking over the label length: longest first. -/
def tryLabelLens (p : ScorePattern) (s : List Char) : Nat → Option (List Char × List Char × List Char)
  | 0 => none
  | Nat.succ g =>
    match matchWithLabelLen p s (Nat.succ g) with
    | some r => some r
    | none => tryLabelLens p s g

/-- Regex match attempt anchored at the head of `s`: the label is a
non-empty run of characters outside `p.excl`, chosen greedily. -/
def matchFrom (p : ScorePattern) (s : List Char) :
    Option (List Char × List Char × List Char) :=
  let run := s.takeWhile (fun c => !(p.excl.contains c))
  tryLabelLens p s run.length

/-- Model of `re.finditer`: scan left to right, emit non-overlapping matches,
resume after each match (fuel bounds the scan; `s.length` suffices). -/
def findIter (p : ScorePattern) : List Char → Nat → List (List Char × List Char)
  | _, 0 => []
  | [], _ => []
  | c :: rest, Nat.succ fuel =>
    match matchFrom p (c :: rest) with
    | some (g1, ds, after) => (g1, ds) :: findIter p after fuel
    | none => findIter p rest fuel

/-- The digit characters read as a natural number. -/
def digitsToNat (ds : List Char) : Nat := ds.foldl (fun a c => a * 10 + (c.toNat - 48)) 0

/-- Value of `float("0.<digits>")` as an exact rational. -/
def digitsToVal (ds : List Char) : PyRat := mkPy (digitsToNat ds : Int) (10 ^ ds.length)

/-- The source's label-synonym normalization (`结构`/`structure`, …),
applied to the stripped, lowercased label; unrecognized labels are
dropped. -/
def keyCanonical (g1 : List Char) : Option (List Char) :=
  let key := lowerStr (pyStrip g1)
  if inStr (("结构").toList) key || inStr (("structure").toList) key then some (("structure").toList)
  else if inStr (("风格").toList) key || inStr (("style").toList) key then some (("style").toList)
  else if inStr (("错误").toList) key || inStr (("error").toList) key then some (("error_handling").toList)
  else if inStr (("可读").toList) key || inStr (("read").toList) key then some (("readability").toList)
  else if inStr (("性能").toList) key || inStr (("performance").toList) key then some (("performance").toList)
  else none

/-- Record one regex emission into the scores dict. -/
def recordScore (d : List (List Char × PyRat)) (m : List Char × List Char) :
    List (List Char × PyRat) :=
  match keyCanonical m.1 with
  | some k => dictSet k (digitsToVal m.2) d
  | none => d

/-- Case-insensitive prefix removal (for `re.IGNORECASE` labels). -/
def dropPrefixCI : List Char → List Char → Option (List Char)
  | [], s => some s
  | _ :: _, [] => none
  | l :: ls, c :: cs => if Char.toLower c = Char.toLower l then dropPrefixCI ls cs else none

/-- Model of `re.search(label ++ "[：:](.*?)(?=\n|$)", text, IGNORECASE)`: first
position where the label and a colon match; the capture runs to the next
newline (lazy `.*?` with the lookahead) and is then stripped. -/
def searchLabel (lbl : List Char) : List Char → Option (List Char)
  | [] => none
  | c :: cs =>
    match
      (match dropPrefixCI lbl (c :: cs) with
       | some rest1 =>
         match rest1 with
         | sep :: rest2 =>
           if sep = '：' || sep = ':' then
             some (pyStrip (rest2.takeWhile (fun d => d ≠ '\n')))
           else none
         | [] => none
       | none => none) with
    | some r => some r
    | none => searchLabel lbl cs

/-- The source's `analysis_patterns` labels, in order. -/
def analysis_labels : List (List Char) :=
  [("分析").toList, ("analysis").toList, ("评估结果").toList]

/-- The analysis text: first label pattern that matches anywhere,
default `无详细分析`. -/
def extractAnalysis (text : List Char) : List Char :=
  match analysis_labels.filterMap (fun lbl => searchLabel lbl text) with
  | a :: _ => a
  | [] => ("无详细分析").toList

/-- Model of `AIIterativeDeveloper._get_default_evaluation`. -/
def get_default_evaluation : JValue :=
  .jobj [((("scores").toList),
          .jobj [((("structure").toList), .jnum (mkPy 1 2)),
                 ((("style").toList), .jnum (mkPy 1 2)),
                 ((("error_handling").toList), .jnum (mkPy 1 2)),
                 ((("readability").toList), .jnum (mkPy 1 2)),
                 ((("performance").toList), .jnum (mkPy 1 2))]),
         ((("total_score").toList), .jnum (mkPy 1 2)),
         ((("analysis").toList), .jstr (("无法解析评估结果，使用默认评分。").toList))]

/-- The scores dict collected by `_extract_scores_from_text`: the three
patterns in order, each scanned by `finditer`, assignments overwriting
earlier ones. -/
def extractedScores (text : List Char) : List (List Char × PyRat) :=
  ((score_patterns.map (fun p => findIter p text text.length)).flatten).foldl recordScore []

/-- Sum of the dict's values (`sum(scores.values())`). -/
def sumVals (d : List (List Char × PyRat)) : PyRat := psum (d.map (fun kv => kv.2))

/-- Model of `AIIterativeDeveloper._extract_scores_from_text`: on at least one
recognized dimension, the mean of the recognized scores and the
extracted analysis; otherwise the default evaluation. -/
def extract_scores_from_text (text : List Char) : JValue :=
  let scores := extractedScores text
  if scores.isEmpty then get_default_evaluation
  else
    .jobj [((("scores").toList), .jobj (scores.map (fun kv => (kv.1, JValue.jnum kv.2)))),
           ((("total_score").toList), .jnum (pdivNat (sumVals scores) scores.length)),
           ((("analysis").toList), .jstr (extractAnalysis text))]

/-! ## `AIIterativeDeveloper._evaluate_code` -/

/-- The pure tail of `_evaluate_code` after the streamed reply has been
collected.  `parse` is the external `json.loads` (its error case is
`json.JSONDecodeError`); `reply` is `Except.error ()` when the API call
or stream raised (the outer handler) and `Except.ok full_text` with the
collected reply otherwise.  The result is `none` exactly where the
Python function falls off the end and returns `None`. -/
def evaluate_code (parse : List Char → Except Unit JValue)
    (reply : Except Unit (List Char)) : Option JValue :=
  match reply with
  | .error _ => some get_default_evaluation
  | .ok full_text =>
    let json_start := pyFind '{' full_text
    let json_end := pyRFind '}' full_text + 1
    if 0 ≤ json_start ∧ json_start < json_end then
      match parse (pySlice full_text json_start.toNat json_end.toNat) with
      | .ok evaluation =>
        if validate_evaluation_format evaluation then some evaluation else none
      | .error _ => some (extract_scores_from_text full_text)
    else none

/-! ## `call_ai_api`: the retry decorator at the model-call boundary

The decorator is `retry(stop=stop_after_attempt(3),
wait=wait_exponential(multiplier=2, min=4, max=60),
retry=retry_if_exception_type((requests.exceptions.RequestException,
json.JSONDecodeError, ValueError)), reraise=True)`.  An attempt's
outcome is abstracted to the exception class the body raises (or the
returned text); `_stream_output`'s "No code block found in response" is
a `ValueError`.  `openai`'s client errors — including its rate-limit
error — are none of the three listed classes and fall under `otherErr`. -/

inductive ApiErr where
  | reqTimeout : ApiErr      -- requests.exceptions.Timeout (a RequestException)
  | reqNetwork : ApiErr      -- other requests.exceptions.RequestException
  | jsonDecode : ApiErr      -- json.JSONDecodeError
  | valueNoCode : ApiErr     -- ValueError: "No code block found in response"
  | rateLimited : ApiErr     -- openai.RateLimitError (not a listed class)
  | otherErr : ApiErr
deriving DecidableEq

/-- The decorator's `retry_if_exception_type((RequestException, JSONDecodeError, ValueError))`. -/
def retryable : ApiErr → Bool
  | .reqTimeout => true
  | .reqNetwork => true
  | .jsonDecode => true
  | .valueNoCode => true
  | .rateLimited => false
  | .otherErr => false

/-- Backoff `wait_exponential(multiplier=2, min=4, max=60)` after attempt `k`
(1-based): `clamp(2 * 2^(k-1), 4, 60)` seconds. -/
def backoffWait (k : Nat) : Nat := max 4 (min (2 * 2 ^ (k - 1)) 60)

/-- The decorator's loop: `attempts` gives the outcome of each 1-based
attempt; `left` counts attempts still allowed including the current one.
Returns the surfaced result, the number of attempts made, and the list
of backoff waits taken. -/
def retryLoop (attempts : Nat → Except ApiErr (List Char)) :
    Nat → Nat → Except ApiErr (List Char) × Nat × List Nat
  | _, 0 => (.error .otherErr, 0, [])   -- unreachable: left ≥ 1 always
  | att, Nat.succ left =>
    match attempts att with
    | .ok s => (.ok s, att, [])
    | .error e =>
      if retryable e && decide (0 < left) then
        let r := retryLoop attempts (att + 1) left
        (r.1, r.2.1, backoffWait att :: r.2.2)
      else (.error e, att, [])

/-- Model of `AIIterativeDeveloper.call_ai_api` under its retry decorator
(`stop_after_attempt(3)`, `reraise=True`). -/
def call_ai_api (attempts : Nat → Except ApiErr (List Char)) :
    Except ApiErr (List Char) × Nat × List Nat :=
  retryLoop attempts 1 3

/-! ## `auto_iterative_development`: the iteration loop

One loop-body execution is abstracted to its observable outcome:
`ok` — the body ran to `iteration_count += 1` (initial generation,
or an evaluate/improve round, successful or degraded); `stop` — the body
terminated the loop (score ≥ `min_improvement_score`, or the
iteration-0 `return False` branch); `exc` — the body raised and the
`except` handler ran.  The handler `continue`s without touching
`iteration_count` when `iteration_count < max_iterations - 1`, else
`break`s. -/

inductive StepOutcome where
  | ok : StepOutcome
  | stop : StepOutcome
  | exc : StepOutcome
deriving DecidableEq

/-- The `while iteration_count < max_iterations` loop.  `out i` is the
outcome of the `i`-th body execution (0-based); `fuel` bounds the number
of body executions we are willing to run, and the result is `none` when
the loop has not exited within `fuel` executions.  Returns the final
`iteration_count`. -/
def devLoop (out : Nat → StepOutcome) (maxIter : Nat) :
    Nat → Nat → Nat → Option Nat
  | 0, count, _ => if maxIter ≤ count then some count else none
  | Nat.succ fuel, count, idx =>
    if maxIter ≤ count then some count
    else
      match out idx with
      | .ok => devLoop out maxIter fuel (count + 1) (idx + 1)
      | .stop => some count
      | .exc =>
        if count < maxIter - 1 then devLoop out maxIter fuel count (idx + 1)
        else some count

/-- Model of `AIIterativeDeveloper.auto_iterative_development` with an initialized
file manager: the loop from `iteration_count = 0`, followed (when the
loop exits) by exactly one final `_evaluate_code` call.  Returns the
final iteration count and the number of final evaluation calls. -/
def auto_iterative_development (out : Nat → StepOutcome) (maxIter fuel : Nat) :
    Option (Nat × Nat) :=
  match devLoop out maxIter fuel 0 0 with
  | some count => some (count, 1)
  | none => none

/-- Number of `exc` outcomes among `out idx, …, out (idx+n-1)`. -/
def excCount (out : Nat → StepOutcome) (idx : Nat) : Nat → Nat
  | 0 => 0
  | Nat.succ n => (if out idx = .exc then 1 else 0) + excCount out (idx + 1) n

/-! ## The version store: `_save_current_version` / `load_existing_project`

`ProjectState` is the `project_state` dict; the filesystem under the
output root is a map from `N` to the contents of directory `v<N>`.  The
checkpoint's `timestamp` and content `hash` come from the environment
(`time.time()`, `hashlib.md5`) and are not read back by any modelled
operation, so they are omitted from the snapshot. -/

structure Checkpoint where
  version : Option Nat
  history : Option (List (List Char))
  user_feedback : Option (List (List Char))
deriving DecidableEq

structure VersionDir where
  main : Option (List Char)          -- contents of v<N>/main.py, if written
  checkpoint : Option Checkpoint     -- v<N>/checkpoint.json, if written
deriving DecidableEq

/-- The output-root directory tree: version number ↦ directory. -/
def FS : Type := Nat → Option VersionDir

/-- The `project_state` dict (`code` keyed by version number of the
`v<N>/main.py` path it names). -/
structure ProjectState where
  current_code : List Char
  version : Nat
  history : List (List Char)
  user_feedback : List (List Char)
  code_map : List (Nat × List Char)
deriving DecidableEq

/-- A fresh `AIIterativeDeveloper(api_key, initial_prompt)`. -/
def initState (initial_prompt : List Char) : ProjectState :=
  ⟨initial_prompt, 0, [], [], []⟩

/-- The empty output root. -/
def emptyFS : FS := fun _ => none

/-- Python `mkdir(exist_ok=True)`. -/
def ensureDir (v : Nat) (fs : FS) : FS :=
  fun k => if k = v then some ((fs v).getD ⟨none, none⟩) else fs k

/-- Write `v<v>/main.py` (creates the directory, keeps any checkpoint). -/
def setMain (v : Nat) (c : List Char) (fs : FS) : FS :=
  fun k => if k = v then some ⟨some c, ((fs v).getD ⟨none, none⟩).checkpoint⟩ else fs k

/-- Write `v<v>/checkpoint.json` (keeps the main file). -/
def setCheckpoint (v : Nat) (cp : Checkpoint) (fs : FS) : FS :=
  fun k => if k = v then some ⟨((fs v).getD ⟨none, none⟩).main, some cp⟩ else fs k

/-- Contents of `v<k>/main.py`, if the directory and file exist. -/
def mainOf (fs : FS) (k : Nat) : Option (List Char) := (fs k).bind (fun d => d.main)

/-- Where a save attempt's first I/O failure happens (if anywhere).
`failCheckpoint` covers both the md5 hash computation and the
checkpoint write, which leave identical on-disk state. -/
inductive SaveOutcome where
  | ok : SaveOutcome
  | failMkdir : SaveOutcome
  | failWriteMain : SaveOutcome
  | failCheckpoint : SaveOutcome
deriving DecidableEq

/-- The `self.project_state['code'][str(main_file)] = current_code`
update that precedes the checkpoint write. -/
def updCodeMap (st : ProjectState) : ProjectState :=
  { st with code_map :=
      if (st.code_map.lookup st.version).isSome
      then st.code_map.map (fun kv => if kv.1 = st.version then (kv.1, st.current_code) else kv)
      else st.code_map ++ [(st.version, st.current_code)] }

/-- Model of `AIIterativeDeveloper._save_current_version`.  `autoSave` is
`config['auto_save']`, `fmInit` is `self.file_manager` being set,
`pathsInit` is `PathConfig.OUTPUT_DIR` being initialized.  Every failure
is caught by the handler: the state below reflects exactly what was
mutated before the failure point, and `version` is incremented only on
full success. -/
def save_current_version (autoSave fmInit pathsInit : Bool) (o : SaveOutcome)
    (st : ProjectState) (fs : FS) : ProjectState × FS :=
  if !autoSave || !fmInit then (st, fs)
  else if !pathsInit then (st, fs)
  else
    match o with
    | .failMkdir => (st, fs)
    | .failWriteMain => (st, ensureDir st.version fs)
    | .failCheckpoint => (updCodeMap st, setMain st.version st.current_code fs)
    | .ok =>
      ({ updCodeMap st with version := st.version + 1 },
       setCheckpoint st.version ⟨some st.version, some st.history, some st.user_feedback⟩
         (setMain st.version st.current_code fs))

/-- A sequence of save attempts as the controller performs them: before
each save the loop has set `current_code` to the content to persist. -/
def runSaves (attempts : List (List Char × SaveOutcome)) (st : ProjectState) (fs : FS) :
    ProjectState × FS :=
  attempts.foldl
    (fun acc a => save_current_version true true true a.2 { acc.1 with current_code := a.1 } acc.2)
    (st, fs)

/-- The number of successful saves in an attempt sequence. -/
def countOk (attempts : List (List Char × SaveOutcome)) : Nat :=
  attempts.countP (fun a => a.2 = SaveOutcome.ok)

/-- The improvement half of one loop iteration (lines 293–304): a
candidate from `_get_improvement_suggestions` goes through
`_apply_improvements` (= `validate_code`); on success it becomes
`current_code` and is saved, otherwise the state is untouched. -/
def improveStep (syn : List Char → Bool) (autoSave fmInit pathsInit : Bool)
    (o : SaveOutcome) (st : ProjectState) (fs : FS) (cand : Option (List Char)) :
    ProjectState × FS :=
  match cand with
  | none => (st, fs)
  | some c =>
    if validate_code syn c then
      save_current_version autoSave fmInit pathsInit o { st with current_code := c } fs
    else (st, fs)

/-- Insertion sort of version directories by version number
(`sorted(..., key=lambda x: int(x.name[1:]))`). -/
def insertByKey (x : Nat × VersionDir) : List (Nat × VersionDir) → List (Nat × VersionDir)
  | [] => [x]
  | y :: ys => if x.1 ≤ y.1 then x :: y :: ys else y :: insertByKey x ys

/-- Sort by version number, ascending. -/
def sortByKey : List (Nat × VersionDir) → List (Nat × VersionDir)
  | [] => []
  | x :: xs => insertByKey x (sortByKey xs)

/-- Model of `AIIterativeDeveloper.load_existing_project` on an existing root
whose version directories are `dirs` (in arbitrary directory-listing
order), after a successful `init_file_manager`.  `none` models the
`return False` paths (no versions, missing `main.py`). -/
def load_existing_project (dirs : List (Nat × VersionDir)) (st : ProjectState) :
    Option ProjectState :=
  match (sortByKey dirs).getLast? with
  | none => none
  | some (n, dd) =>
    match dd.main with
    | none => none
    | some content =>
      match dd.checkpoint with
      | some cp =>
        some { st with
          current_code := content,
          version := cp.version.getD n + 1,
          history := cp.history.getD [],
          user_feedback := cp.user_feedback.getD [],
          code_map := [(n, content)] }
      | none =>
        some { st with
          current_code := content,
          version := n + 1,
          code_map := [(n, content)] }

/-! ## C1 — loop termination -/

/-- A loop-body outcome stream that always raises. -/
def allExc : Nat → StepOutcome := fun _ => StepOutcome.exc

/-! ## C5 — the fallback parse path -/

/-- The reply text of the claim's scenario: no JSON object at all. -/
def evalReplyNoBrace : List Char := ("结构: 0.6\n风格: 0.7\n").toList

/-- The same score lines behind a brace pair whose slice is not JSON. -/
def evalReplyBraced : List Char := ("\x7bx\x7d\n结构: 0.6\n风格: 0.7\n").toList

/-- The report the fallback extraction produces for these score lines:
the two recognized dimensions, their mean as `total_score`, and the
placeholder analysis. -/
def fallbackReportTwoDims : JValue :=
  .jobj [((("scores").toList),
          .jobj [((("structure").toList), .jnum (mkPy 6 10)),
                 ((("style").toList), .jnum (mkPy 7 10))]),
         ((("total_score").toList), .jnum (mkPy 13 20)),
         ((("analysis").toList), .jstr (("无详细分析").toList))]

/-! ## C2 — the evaluation operation's result -/

/-- An evaluation reply that is perfectly valid JSON but whose
`analysis` is shorter than 10 characters, so it fails the validity
predicate. -/
def jsonShortAnalysisText : List Char :=
  ("\x7b\"scores\": \x7b\"structure\": 0.5, \"style\": 0.5, \"error_handling\": 0.5, \"readability\": 0.5, \"performance\": 0.5\x7d, \"total_score\": 0.5, \"analysis\": \"short\"\x7d").toList

/-- The parse of `jsonShortAnalysisText` (what `json.loads` returns on
it). -/
def reportShortAnalysis : JValue :=
  .jobj [((("scores").toList),
          .jobj [((("structure").toList), .jnum (mkPy 1 2)),
                 ((("style").toList), .jnum (mkPy 1 2)),
                 ((("error_handling").toList), .jnum (mkPy 1 2)),
                 ((("readability").toList), .jnum (mkPy 1 2)),
                 ((("performance").toList), .jnum (mkPy 1 2))]),
         ((("total_score").toList), .jnum (mkPy 1 2)),
         ((("analysis").toList), .jstr (("short").toList))]

/-- A `json.loads` stub for `jsonShortAnalysisText`. -/
def parseStubShort : List Char → Except Unit JValue :=
  fun s => if s = jsonShortAnalysisText then Except.ok reportShortAnalysis else Except.error ()

/-! ## C3 — score bounds and the total-score/mean relation -/

/-- The entries of a report's `scores` object. -/
def scoreEntries (v : JValue) : List (List Char × JValue) :=
  match v with
  | .jobj fields =>
    match objGet fields (("scores").toList) with
    | some (.jobj sfs) => sfs
    | _ => []
  | _ => []

/-- The numeric value of a report's `total_score` field. -/
def totalScoreOf (v : JValue) : Option PyRat :=
  match v with
  | .jobj fields => (objGet fields (("total_score").toList)).bind asNum
  | _ => none

/-- The arithmetic mean of a report's recognized dimension scores (the
quantity the claim relates `total_score` to). -/
def scoresMean (v : JValue) : Option PyRat :=
  let qs := (scoreEntries v).filterMap (fun kv => asNum kv.2)
  if qs.isEmpty then none else some (pdivNat (psum qs) qs.length)

/-- A score value is well-formed and within the unit interval. -/
def scoreOK (q : PyRat) : Prop := 0 ≤ q.val ∧ q.val ≤ 1 ∧ q.den ≠ 0

/-- A structured JSON reply whose `total_score` (0.9) is not the mean
(0.5) of its five dimension scores, yet passes the format validation. -/
def jsonTotalMismatchText : List Char :=
  ("\x7b\"scores\": \x7b\"structure\": 0.5, \"style\": 0.5, \"error_handling\": 0.5, \"readability\": 0.5, \"performance\": 0.5\x7d, \"total_score\": 0.9, \"analysis\": \"a solid analysis overall\"\x7d").toList

/-- The parse of `jsonTotalMismatchText` (what `json.loads` returns on
it). -/
def reportTotalMismatch : JValue :=
  .jobj [((("scores").toList),
          .jobj [((("structure").toList), .jnum (mkPy 1 2)),
                 ((("style").toList), .jnum (mkPy 1 2)),
                 ((("error_handling").toList), .jnum (mkPy 1 2)),
                 ((("readability").toList), .jnum (mkPy 1 2)),
                 ((("performance").toList), .jnum (mkPy 1 2))]),
         ((("total_score").toList), .jnum (mkPy 9 10)),
         ((("analysis").toList), .jstr (("a solid analysis overall").toList))]

/-- A `json.loads` stub for `jsonTotalMismatchText`. -/
def parseStubMismatch : List Char → Except Unit JValue :=
  fun s => if s = jsonTotalMismatchText then Except.ok reportTotalMismatch else Except.error ()

/-! ## C7 — fence stripping and the line-count check -/

/-- A fenced candidate whose content has only 8 non-empty lines (but 10
lines in total), is valid Python, and carries every required token. -/
def fencedSparseExample : List Char :=
  ("```python\nimport os\n\n\nclass A:\n    \"\"\"d\"\"\"\n    def f(s):\n        try:\n            pass\n        except:\n            pass").toList

theorem gcdFuel_eq : ∀ f m n, m ≤ f → gcdFuel f m n = Nat.gcd m n := by
  intro f
  induction f with
  | zero =>
    intro m n h
    have : m = 0 := Nat.le_zero.mp h
    subst this
    simp [gcdFuel]
  | succ f ih =>
    intro m n h
    cases m with
    | zero => simp [gcdFuel]
    | succ m' =>
      have hb : n % (m' + 1) ≤ f := by
        have := Nat.mod_lt n (show 0 < m' + 1 by omega)
        omega
      simp only [gcdFuel]
      rw [ih _ _ hb, Nat.gcd_succ]

theorem pyGcd_eq (m n : Nat) : pyGcd m n = Nat.gcd m n := gcdFuel_eq m m n le_rfl

theorem mkPy_den_ne (n : Int) (d : Nat) (hd : d ≠ 0) : (mkPy n d).den ≠ 0 := by
  unfold mkPy
  rw [if_neg hd]
  simp only
  have hg : 0 < pyGcd n.natAbs d := by
    rw [pyGcd_eq]
    exact Nat.gcd_pos_of_pos_right _ (Nat.pos_of_ne_zero hd)
  have hdvd : pyGcd n.natAbs d ∣ d := by
    rw [pyGcd_eq]
    exact Nat.gcd_dvd_right _ _
  have := Nat.div_pos (Nat.le_of_dvd (Nat.pos_of_ne_zero hd) hdvd) hg
  omega

theorem PyRat.val_mkPy (n : Int) (d : Nat) (hd : d ≠ 0) :
    (mkPy n d).val = (n : Rat) / (d : Rat) := by
  unfold mkPy
  rw [if_neg hd]
  have hg : 0 < pyGcd n.natAbs d := by
    rw [pyGcd_eq]
    exact Nat.gcd_pos_of_pos_right _ (Nat.pos_of_ne_zero hd)
  have hdvd : pyGcd n.natAbs d ∣ d := by
    rw [pyGcd_eq]
    exact Nat.gcd_dvd_right _ _
  have hnvd : ((pyGcd n.natAbs d : Nat) : Int) ∣ n := by
    rw [pyGcd_eq]
    exact Int.dvd_natAbs.mp (Int.natCast_dvd_natCast.mpr (Nat.gcd_dvd_left _ _))
  set g : Nat := pyGcd n.natAbs d with hgdef
  obtain ⟨n', hn'⟩ := hnvd
  obtain ⟨d', hd'⟩ := hdvd
  simp only [PyRat.val, hn', hd']
  rw [Int.mul_ediv_cancel_left _ (by exact_mod_cast hg.ne'), Nat.mul_div_cancel_left _ hg]
  push_cast
  rw [mul_div_mul_left _ _ (by exact_mod_cast hg.ne')]

theorem padd_den_ne (a b : PyRat) (ha : a.den ≠ 0) (hb : b.den ≠ 0) :
    (padd a b).den ≠ 0 :=
  mkPy_den_ne _ _ (Nat.mul_ne_zero ha hb)

theorem PyRat.val_padd (a b : PyRat) (ha : a.den ≠ 0) (hb : b.den ≠ 0) :
    (padd a b).val = a.val + b.val := by
  unfold padd
  rw [PyRat.val_mkPy _ _ (Nat.mul_ne_zero ha hb)]
  unfold PyRat.val
  have ha' : (a.den : Rat) ≠ 0 := by exact_mod_cast ha
  have hb' : (b.den : Rat) ≠ 0 := by exact_mod_cast hb
  push_cast
  field_simp

theorem PyRat.val_pdivNat (a : PyRat) (n : Nat) (ha : a.den ≠ 0) (hn : n ≠ 0) :
    (pdivNat a n).val = a.val / (n : Rat) := by
  unfold pdivNat
  rw [PyRat.val_mkPy _ _ (Nat.mul_ne_zero ha hn)]
  unfold PyRat.val
  have ha' : (a.den : Rat) ≠ 0 := by exact_mod_cast ha
  have hn' : ((n : Nat) : Rat) ≠ 0 := by exact_mod_cast hn
  push_cast
  field_simp

/-- The source's guard `0 <= x <= 1` bounds the interpreted value (for a
zero denominator the guards force a zero numerator). -/
theorem pyLe_unit_bounds (q : PyRat)
    (h0 : pyLe (pyOfNat 0) q = true) (h1 : pyLe q (pyOfNat 1) = true) :
    0 ≤ q.val ∧ q.val ≤ 1 := by
  unfold pyLe pyOfNat at h0 h1
  simp only [decide_eq_true_eq] at h0 h1
  have h0' : 0 ≤ q.num := by omega
  have h1' : q.num ≤ (q.den : Int) := by omega
  unfold PyRat.val
  rcases Nat.eq_zero_or_pos q.den with hd | hd
  · have : q.num = 0 := by omega
    simp [hd, this]
  · have hd' : (0 : Rat) < (q.den : Rat) := by exact_mod_cast hd
    constructor
    · apply div_nonneg _ hd'.le
      exact_mod_cast h0'
    · rw [div_le_one hd']
      exact_mod_cast h1'

/-! ## Helper lemmas -/

/-- A `devLoop` run with enough fuel to cover the iteration budget plus
the caught exceptions in its window always exits. -/
theorem devLoop_isSome (out : Nat → StepOutcome) (maxIter : Nat) :
    ∀ fuel count idx, maxIter - count + excCount out idx fuel ≤ fuel →
      (devLoop out maxIter fuel count idx).isSome = true := by
  intro fuel
  induction fuel with
  | zero =>
    intro count idx h
    simp only [excCount, Nat.add_zero] at h
    simp only [devLoop]
    have : maxIter ≤ count := by omega
    simp [this]
  | succ fuel ih =>
    intro count idx h
    simp only [devLoop]
    by_cases hc : maxIter ≤ count
    · simp [hc]
    · simp only [hc, if_false]
      simp only [excCount] at h
      cases hout : out idx with
      | ok =>
        simp only [hout] at h ⊢
        exact ih (count + 1) (idx + 1) (by simp at h; omega)
      | stop => simp
      | exc =>
        simp only [hout] at h ⊢
        by_cases hlt : count < maxIter - 1
        · simp only [hlt, if_true]
          exact ih count (idx + 1) (by simp at h; omega)
        · simp [hlt]

set_option maxRecDepth 4000 in
/-- C1 counterexample.  The claim says `auto_iterative_development`
terminates within `max_iterations` controller steps regardless of how
many steps fail.  With `max_iterations = 2` and every body execution
raising, the handler `continue`s without advancing `iteration_count`, so
the loop has not exited after 2 body executions — nor after 200: the
claimed bound is false (the loop spins for as long as the exceptions
recur). -/
theorem c1_loop_exceeds_max_iterations :
    devLoop allExc 2 2 0 0 = none ∧
    devLoop allExc 2 200 0 0 = none ∧
    auto_iterative_development allExc 2 200 = none := by
  refine ⟨by decide, by decide, by decide⟩

/-- C1 (amended): the loop terminates within `max_iterations + E` body
executions whenever at most `E` of the body executions in that window
raise (a caught exception `continue`s without advancing the iteration
counter, so each caught exception adds one body execution to the bound);
one final evaluation call follows loop exit. -/
theorem c1_loop_terminates_with_exception_budget
    (out : Nat → StepOutcome) (maxIter E : Nat)
    (h : excCount out 0 (maxIter + E) ≤ E) :
    ∃ count, auto_iterative_development out maxIter (maxIter + E) = some (count, 1) := by
  have hs := devLoop_isSome out maxIter (maxIter + E) 0 0 (by omega)
  rcases Option.isSome_iff_exists.mp hs with ⟨count, hc⟩
  exact ⟨count, by simp [auto_iterative_development, hc]⟩

/-- Witness for C1 (amended): two iterations with one interposed caught
exception finish within `2 + 1` body executions. -/
theorem c1_loop_terminates_with_exception_budget_witness :
    excCount (fun i => if i = 0 then StepOutcome.exc else StepOutcome.ok) 0 3 ≤ 1 ∧
    ∃ count, auto_iterative_development
        (fun i => if i = 0 then StepOutcome.exc else StepOutcome.ok) 2 3 = some (count, 1) :=
  ⟨by decide,
   c1_loop_terminates_with_exception_budget
     (fun i => if i = 0 then StepOutcome.exc else StepOutcome.ok) 2 1 (by decide)⟩

/-! ## C6 — the retry policy -/

/-- The backoff wait is always within the configured floor and ceiling. -/
theorem backoffWait_bounds (k : Nat) : 4 ≤ backoffWait k ∧ backoffWait k ≤ 60 := by
  unfold backoffWait
  exact ⟨Nat.le_max_left _ _, Nat.max_le.mpr ⟨by norm_num, Nat.min_le_right _ _⟩⟩

/-- C6 counterexample.  The claim says a response with no fenced code
block (`ExtractionError`, raised as `ValueError`) is not retried under
the backoff policy but surfaced to the controller.  In the code,
`ValueError` is in the decorator's retryable tuple: after a first
attempt that raises it, a second attempt is made (after the 4-second
backoff wait) and its successful result is returned — nothing is
surfaced. -/
theorem c6_extraction_error_is_retried :
    retryable ApiErr.valueNoCode = true ∧
    call_ai_api (fun k => if k = 1 then Except.error ApiErr.valueNoCode
                          else Except.ok (("code").toList)) =
      (Except.ok (("code").toList), 2, [4]) := by
  exact ⟨rfl, rfl⟩

/-- C6 (amended): at the model-call boundary, exceptions of the classes
`requests.exceptions.RequestException` (timeout, network error),
`json.JSONDecodeError` and `ValueError` — the latter including the
no-code-block extraction failure — are retried, up to 3 attempts in
total, each retry after a backoff wait within [4s, 60s]; an error of any
other class (including the API client's rate-limit error) surfaces from
the attempt that raised it, and a retryable error surfaces only from the
third attempt. -/
theorem c6_retry_policy (attempts : Nat → Except ApiErr (List Char)) :
    1 ≤ (call_ai_api attempts).2.1 ∧ (call_ai_api attempts).2.1 ≤ 3 ∧
    (∀ w ∈ (call_ai_api attempts).2.2, 4 ≤ w ∧ w ≤ 60) ∧
    (∀ k, 1 ≤ k → k < (call_ai_api attempts).2.1 →
       ∃ e, attempts k = Except.error e ∧ retryable e = true) ∧
    (∀ e, (call_ai_api attempts).1 = Except.error e →
       attempts (call_ai_api attempts).2.1 = Except.error e ∧
       (retryable e = false ∨ (call_ai_api attempts).2.1 = 3)) ∧
    (∀ s, (call_ai_api attempts).1 = Except.ok s →
       attempts (call_ai_api attempts).2.1 = Except.ok s) := by
  unfold call_ai_api
  cases h1 : attempts 1 with
  | ok s =>
    simp only [retryLoop, h1]
    refine ⟨by norm_num, by norm_num, by simp, ?_, by simp, by simp⟩
    intro k hk1 hk2
    simp at hk2
    subst hk2
    exact absurd hk1 (by norm_num)
  | error e1 =>
    by_cases hr1 : retryable e1
    · cases h2 : attempts 2 with
      | ok s =>
        simp only [retryLoop, h1, h2, hr1]
        refine ⟨by norm_num, by norm_num, ?_, ?_, ?_, ?_⟩
        · intro w hw
          simp at hw
          subst hw
          exact backoffWait_bounds 1
        · intro k hk1 hk2
          simp at hk2
          have : k = 1 := by omega
          subst this
          exact ⟨e1, h1, hr1⟩
        · intro e he
          simp at he
        · intro s' hs
          simp at hs
          subst hs
          simpa using h2
      | error e2 =>
        by_cases hr2 : retryable e2
        · -- third attempt, whatever it is, is surfaced
          cases h3 : attempts 3 with
          | ok s =>
            simp only [retryLoop, h1, h2, h3, hr1, hr2]
            refine ⟨by norm_num, by norm_num, ?_, ?_, ?_, ?_⟩
            · intro w hw
              simp at hw
              rcases hw with hw | hw <;> subst hw
              · exact backoffWait_bounds 1
              · exact backoffWait_bounds 2
            · intro k hk1 hk2
              simp at hk2
              interval_cases k
              · exact ⟨e1, h1, hr1⟩
              · exact ⟨e2, h2, hr2⟩
            · intro e he
              simp at he
            · intro s' hs
              simp at hs
              subst hs
              simpa using h3
          | error e3 =>
            simp only [retryLoop, h1, h2, h3, hr1, hr2]
            have hstop : (retryable e3 && decide (0 < 0)) = false := by simp
            simp only [hstop, if_false]
            refine ⟨by norm_num, by norm_num, ?_, ?_, ?_, ?_⟩
            · intro w hw
              simp at hw
              rcases hw with hw | hw <;> subst hw
              · exact backoffWait_bounds 1
              · exact backoffWait_bounds 2
            · intro k hk1 hk2
              simp at hk2
              interval_cases k
              · exact ⟨e1, h1, hr1⟩
              · exact ⟨e2, h2, hr2⟩
            · intro e he
              simp at he
              subst he
              exact ⟨by simpa using h3, Or.inr rfl⟩
            · intro s' hs
              simp at hs
        · simp only [retryLoop, h1, h2, hr1, hr2]
          simp only [Bool.false_and, if_false]
          refine ⟨by norm_num, by norm_num, ?_, ?_, ?_, ?_⟩
          · intro w hw
            simp at hw
            subst hw
            exact backoffWait_bounds 1
          · intro k hk1 hk2
            simp at hk2
            have : k = 1 := by omega
            subst this
            exact ⟨e1, h1, hr1⟩
          · intro e he
            simp at he
            subst he
            exact ⟨by simpa using h2, Or.inl (by simpa using hr2)⟩
          · intro s' hs
            simp at hs
    · simp only [retryLoop, h1]
      have hc : (retryable e1 && decide (0 < 2)) = false := by simp [hr1]
      simp only [hc, Bool.false_eq_true, if_false]
      refine ⟨by norm_num, by norm_num, by simp, ?_, ?_, by simp⟩
      · intro k hk1 hk2
        simp at hk2
        exact absurd hk2 (by omega)
      · intro e he
        simp at he
        subst he
        exact ⟨by simpa using h1, Or.inl (by simpa using hr1)⟩

/-- Witness for C6 (amended), at a stream whose first attempt times out
and whose second succeeds. -/
theorem c6_retry_policy_witness :
    (∀ w ∈ (call_ai_api (fun k => if k = 1 then Except.error ApiErr.reqTimeout
                                  else Except.ok (("x").toList))).2.2, 4 ≤ w ∧ w ≤ 60) ∧
    (∀ k, 1 ≤ k →
       k < (call_ai_api (fun k => if k = 1 then Except.error ApiErr.reqTimeout
                                  else Except.ok (("x").toList))).2.1 →
       ∃ e, (fun k => if k = 1 then Except.error ApiErr.reqTimeout
                      else Except.ok (("x").toList)) k = Except.error e ∧ retryable e = true) :=
  ⟨(c6_retry_policy _).2.2.1, (c6_retry_policy _).2.2.2.1⟩

/-! ## C10 — save is a no-op without auto-save / file manager -/

/-- C10: when `config['auto_save']` is false or `self.file_manager` is
unset, `_save_current_version` returns immediately: no directory or file
is touched and every field of the project state (current content,
version counter, history, user feedback, code map) is unchanged. -/
theorem c10_save_noop_without_autosave
    (autoSave fmInit pathsInit : Bool) (o : SaveOutcome) (st : ProjectState) (fs : FS)
    (h : autoSave = false ∨ fmInit = false) :
    save_current_version autoSave fmInit pathsInit o st fs = (st, fs) := by
  rcases h with h | h <;> subst h <;> simp [save_current_version]

/-- Witness for C10 at a concrete state with the auto-save flag off. -/
theorem c10_save_noop_without_autosave_witness :
    (false = false ∨ true = false) ∧
    save_current_version false true true SaveOutcome.ok
      (initState (("p").toList)) emptyFS = (initState (("p").toList), emptyFS) :=
  ⟨Or.inl rfl,
   c10_save_noop_without_autosave false true true SaveOutcome.ok
     (initState (("p").toList)) emptyFS (Or.inl rfl)⟩

/-! ## C9 — loading the latest version -/

/-- C9: loading an existing project whose root holds only `v0` and `v2`
(in either directory-listing order, neither with a checkpoint file)
selects the numerically greatest directory `v2`, takes its main file as
the current content, derives the version from the directory name and
resumes at version `2 + 1 = 3`, with history and user feedback left
empty (the fresh controller state's empty lists are kept when the
checkpoint is absent). -/
theorem c9_load_latest_resumes_at_three (p c0 c2 : List Char) :
    load_existing_project [(0, ⟨some c0, none⟩), (2, ⟨some c2, none⟩)] (initState p) =
      some ⟨c2, 3, [], [], [(2, c2)]⟩ ∧
    load_existing_project [(2, ⟨some c2, none⟩), (0, ⟨some c0, none⟩)] (initState p) =
      some ⟨c2, 3, [], [], [(2, c2)]⟩ := by
  constructor <;> rfl

/-- C5 counterexample.  The claim says that on the unparseable reply
`"结构: 0.6\n风格: 0.7\n"` (containing no JSON object) the fallback
path yields scores `{structure: 0.6, style: 0.7}`.  In the code the
fallback runs only in the `except json.JSONDecodeError` handler, and
with no `{` in the reply (`find` returns `-1`) `json.loads` is never
called: the method falls off the end and returns `None` — no fallback
report, whatever the JSON parser would do. -/
theorem c5_fallback_not_reached_without_brace :
    evaluate_code (fun _ => Except.error ()) (Except.ok evalReplyNoBrace) = none := rfl

/-- C5 (amended): the fallback path runs only when the reply contains a
`{`…`}` pair whose slice fails JSON parsing; on such a reply carrying
the lines `结构: 0.6` and `风格: 0.7` it yields scores
`{structure: 0.6, style: 0.7}`, `total_score = 0.65` (the mean of only
the recognized dimensions) and `analysis = "无详细分析"`; on the bare
text with no `{` the method returns no report at all. -/
theorem c5_fallback_scores_on_brace_slice_failure
    (parse : List Char → Except Unit JValue)
    (h : parse (("\x7bx\x7d").toList) = Except.error ()) :
    evaluate_code parse (Except.ok evalReplyBraced) = some fallbackReportTwoDims ∧
    evaluate_code parse (Except.ok evalReplyNoBrace) = none := by
  constructor
  · have hstep : evaluate_code parse (Except.ok evalReplyBraced) =
        match parse (("\x7bx\x7d").toList) with
        | .ok ev => if validate_evaluation_format ev then some ev else none
        | .error _ => some (extract_scores_from_text evalReplyBraced) := rfl
    rw [hstep, h]
    exact rfl
  · rfl

/-- Witness for C5 (amended), with a parser stub that rejects the slice
`"{x}"` exactly as `json.loads` does. -/
theorem c5_fallback_scores_on_brace_slice_failure_witness :
    ((fun _ : List Char => (Except.error () : Except Unit JValue)) (("\x7bx\x7d").toList)
       = Except.error ()) ∧
    evaluate_code (fun _ => Except.error ()) (Except.ok evalReplyBraced) =
      some fallbackReportTwoDims :=
  ⟨rfl, (c5_fallback_scores_on_brace_slice_failure (fun _ => Except.error ()) rfl).1⟩

/-- C2 counterexample.  The claim says the evaluation always returns an
`EvaluationReport`, and that a parsed report failing the validity
predicate is replaced by the fixed default report.  On a reply whose
JSON parses but whose `analysis` is too short, the code's `if
self._validate_evaluation_format(evaluation)` simply does not return:
the method falls off the end and yields `None`, not the default
report. -/
theorem c2_invalid_report_yields_none :
    validate_evaluation_format reportShortAnalysis = false ∧
    evaluate_code parseStubShort (Except.ok jsonShortAnalysisText) = none := by
  refine ⟨by decide, by rfl⟩

/-- C2 (amended): the evaluation never raises; it returns the default
report when the API call or stream raises, and the fallback extraction's
report (itself the default when no scores are found) when the brace
slice fails JSON parsing; but it returns no report (`None`) exactly
when the reply lacks a `{`…`}` pair, or the slice parses as JSON yet
fails the validity predicate. -/
theorem c2_evaluate_code_result_characterization
    (parse : List Char → Except Unit JValue) (t : List Char) :
    evaluate_code parse (Except.error ()) = some get_default_evaluation ∧
    (evaluate_code parse (Except.ok t) = none ↔
      (¬(0 ≤ pyFind '{' t ∧ pyFind '{' t < pyRFind '}' t + 1) ∨
       ∃ v, parse (pySlice t (pyFind '{' t).toNat (pyRFind '}' t + 1).toNat) = Except.ok v ∧
            validate_evaluation_format v = false)) := by
  refine ⟨rfl, ?_⟩
  by_cases hc : 0 ≤ pyFind '{' t ∧ pyFind '{' t < pyRFind '}' t + 1
  · cases hp : parse (pySlice t (pyFind '{' t).toNat (pyRFind '}' t + 1).toNat) with
    | ok v =>
      by_cases hv : validate_evaluation_format v
      · simp [evaluate_code, hc, hp, hv]
      · simp [evaluate_code, hc, hp, hv]
    | error e =>
      simp [evaluate_code, hc, hp]
  · simp [evaluate_code, hc]

/-- Witness for C2 (amended): the exception path yields the default
report (via the characterization applied at a concrete parser and
reply). -/
theorem c2_evaluate_code_result_characterization_witness :
    evaluate_code parseStubShort (Except.error ()) = some get_default_evaluation :=
  (c2_evaluate_code_result_characterization parseStubShort []).1

theorem digitsToNat_foldl_lt : ∀ (ds : List Char) (a : Nat),
    (∀ c ∈ ds, isDigitC c = true) →
    ds.foldl (fun x c => x * 10 + (c.toNat - 48)) a < (a + 1) * 10 ^ ds.length := by
  intro ds
  induction ds with
  | nil => intro a _; simp
  | cons c ds ih =>
    intro a h
    have hc : c.toNat - 48 ≤ 9 := by
      have := h c (List.mem_cons_self c ds)
      unfold isDigitC at this
      simp only [Bool.and_eq_true, decide_eq_true_eq] at this
      omega
    have hrec := ih (a * 10 + (c.toNat - 48)) (fun x hx => h x (List.mem_cons_of_mem c hx))
    calc ds.foldl (fun x c => x * 10 + (c.toNat - 48)) (a * 10 + (c.toNat - 48))
        < (a * 10 + (c.toNat - 48) + 1) * 10 ^ ds.length := hrec
      _ ≤ ((a + 1) * 10) * 10 ^ ds.length :=
          Nat.mul_le_mul_right _ (by omega)
      _ = (a + 1) * 10 ^ (c :: ds).length := by
          rw [List.length_cons, pow_succ]
          ring

theorem digitsToNat_lt (ds : List Char) (h : ∀ c ∈ ds, isDigitC c = true) :
    digitsToNat ds < 10 ^ ds.length := by
  have := digitsToNat_foldl_lt ds 0 h
  simpa [digitsToNat] using this

theorem digitsToVal_scoreOK (ds : List Char) (h : ∀ c ∈ ds, isDigitC c = true) :
    scoreOK (digitsToVal ds) := by
  have hpow : (10 : Nat) ^ ds.length ≠ 0 := by positivity
  have hval : (digitsToVal ds).val =
      ((digitsToNat ds : Int) : Rat) / ((10 ^ ds.length : Nat) : Rat) :=
    PyRat.val_mkPy _ _ hpow
  have hlt : (digitsToNat ds : Rat) < ((10 ^ ds.length : Nat) : Rat) := by
    exact_mod_cast digitsToNat_lt ds h
  have hposd : (0 : Rat) < ((10 ^ ds.length : Nat) : Rat) := by positivity
  refine ⟨?_, ?_, mkPy_den_ne _ _ hpow⟩
  · rw [hval]
    positivity
  · rw [hval, div_le_one hposd]
    push_cast
    push_cast at hlt
    linarith

theorem matchScoreTail_digits {s : List Char} {ds rest : List Char}
    (h : matchScoreTail s = some (ds, rest)) :
    ds ≠ [] ∧ ∀ c ∈ ds, isDigitC c = true := by
  simp only [matchScoreTail] at h
  split at h
  · next s2 =>
    split at h
    · exact absurd h (by simp)
    · next hne =>
      injection h with h'
      injection h' with h1 h2
      subst h1
      refine ⟨by simpa using hne, ?_⟩
      intro c hc
      exact List.mem_takeWhile_imp hc
  · exact absurd h (by simp)

theorem matchWithLabelLen_digits {p : ScorePattern} {s : List Char} {g : Nat}
    {g1 ds rest : List Char}
    (h : matchWithLabelLen p s g = some (g1, ds, rest)) :
    ds ≠ [] ∧ ∀ c ∈ ds, isDigitC c = true := by
  unfold matchWithLabelLen at h
  split at h
  · exact absurd h (by simp)
  · split at h
    · split at h
      · next heq =>
        injection h with h'
        injection h' with h1 h2
        injection h2 with h3 h4
        subst h3
        exact matchScoreTail_digits heq
      · exact absurd h (by simp)
    · exact absurd h (by simp)

theorem tryLabelLens_digits {p : ScorePattern} {s : List Char} :
    ∀ {n : Nat} {g1 ds rest : List Char},
    tryLabelLens p s n = some (g1, ds, rest) →
    ds ≠ [] ∧ ∀ c ∈ ds, isDigitC c = true := by
  intro n
  induction n with
  | zero => intro g1 ds rest h; exact absurd h (by simp [tryLabelLens])
  | succ g ih =>
    intro g1 ds rest h
    unfold tryLabelLens at h
    split at h
    · next heq =>
      injection h with h'
      subst h'
      exact matchWithLabelLen_digits heq
    · exact ih h

theorem matchFrom_digits {p : ScorePattern} {s : List Char} {g1 ds rest : List Char}
    (h : matchFrom p s = some (g1, ds, rest)) :
    ds ≠ [] ∧ ∀ c ∈ ds, isDigitC c = true := by
  unfold matchFrom at h
  exact tryLabelLens_digits h

theorem findIter_digits {p : ScorePattern} :
    ∀ (fuel : Nat) (s : List Char) (m : List Char × List Char),
    m ∈ findIter p s fuel → m.2 ≠ [] ∧ ∀ c ∈ m.2, isDigitC c = true := by
  intro fuel
  induction fuel with
  | zero => intro s m hm; simp [findIter] at hm
  | succ fuel ih =>
    intro s m hm
    cases s with
    | nil => simp [findIter] at hm
    | cons c rest =>
      rw [findIter] at hm
      split at hm
      · next g1 ds after heq =>
        rcases List.mem_cons.mp hm with hm | hm
        · subst hm
          exact matchFrom_digits heq
        · exact ih after m hm
      · exact ih rest m hm

theorem dictSet_mem {k : List Char} {v : PyRat} :
    ∀ {d : List (List Char × PyRat)} {kv : List Char × PyRat},
    kv ∈ dictSet k v d → kv.2 = v ∨ kv ∈ d := by
  intro d
  induction d with
  | nil =>
    intro kv hkv
    simp [dictSet] at hkv
    subst hkv
    exact Or.inl rfl
  | cons x rest ih =>
    intro kv hkv
    unfold dictSet at hkv
    split at hkv
    · rcases List.mem_cons.mp hkv with hkv | hkv
      · subst hkv; exact Or.inl rfl
      · exact Or.inr (List.mem_cons_of_mem _ hkv)
    · rcases List.mem_cons.mp hkv with hkv | hkv
      · subst hkv; exact Or.inr (List.mem_cons_self _ _)
      · rcases ih hkv with h | h
        · exact Or.inl h
        · exact Or.inr (List.mem_cons_of_mem _ h)

theorem foldl_recordScore_scoreOK :
    ∀ (ms : List (List Char × List Char)) (d : List (List Char × PyRat)),
    (∀ kv ∈ d, scoreOK kv.2) →
    (∀ m ∈ ms, m.2 ≠ [] ∧ ∀ c ∈ m.2, isDigitC c = true) →
    ∀ kv ∈ ms.foldl recordScore d, scoreOK kv.2 := by
  intro ms
  induction ms with
  | nil => intro d hd _ kv hkv; exact hd kv hkv
  | cons m rest ih =>
    intro d hd hm kv hkv
    simp only [List.foldl_cons] at hkv
    refine ih (recordScore d m) ?_ (fun x hx => hm x (List.mem_cons_of_mem m hx)) kv hkv
    intro x hx
    unfold recordScore at hx
    split at hx
    · rcases dictSet_mem hx with h | h
      · rw [h]
        exact digitsToVal_scoreOK _ (hm m (List.mem_cons_self m rest)).2
      · exact hd x h
    · exact hd x hx

theorem extractedScores_scoreOK (t : List Char) :
    ∀ kv ∈ extractedScores t, scoreOK kv.2 := by
  intro kv hkv
  unfold extractedScores at hkv
  refine foldl_recordScore_scoreOK _ [] (by simp) ?_ kv hkv
  intro m hm
  rcases List.mem_flatten.mp hm with ⟨l, hl, hml⟩
  rcases List.mem_map.mp hl with ⟨p, _, rfl⟩
  exact findIter_digits _ _ m hml

theorem psum_foldl_spec :
    ∀ (l : List PyRat) (a : PyRat), a.den ≠ 0 → (∀ q ∈ l, q.den ≠ 0) →
    (l.foldl padd a).den ≠ 0 ∧
    (l.foldl padd a).val = a.val + (l.map PyRat.val).sum := by
  intro l
  induction l with
  | nil => intro a ha _; simpa using ha
  | cons q l ih =>
    intro a ha hl
    have hq : q.den ≠ 0 := hl q (List.mem_cons_self q l)
    have hrest : ∀ x ∈ l, x.den ≠ 0 := fun x hx => hl x (List.mem_cons_of_mem q hx)
    have h1 := ih (padd a q) (padd_den_ne a q ha hq) hrest
    refine ⟨h1.1, ?_⟩
    simp only [List.foldl_cons, List.map_cons, List.sum_cons]
    rw [h1.2, PyRat.val_padd a q ha hq]
    ring

theorem psum_spec (l : List PyRat) (hl : ∀ q ∈ l, q.den ≠ 0) :
    (psum l).den ≠ 0 ∧ (psum l).val = (l.map PyRat.val).sum := by
  have h := psum_foldl_spec l (pyOfNat 0) (by simp [pyOfNat]) hl
  refine ⟨h.1, ?_⟩
  rw [psum, h.2]
  simp [PyRat.val, pyOfNat]

/-- The mean of a non-empty score dict with unit-interval values is in
the unit interval. -/
theorem mean_unit_bounds (d : List (List Char × PyRat)) (hd : d ≠ [])
    (hP : ∀ kv ∈ d, scoreOK kv.2) :
    0 ≤ (pdivNat (sumVals d) d.length).val ∧ (pdivNat (sumVals d) d.length).val ≤ 1 := by
  have hdens : ∀ q ∈ d.map (fun kv => kv.2), q.den ≠ 0 := by
    intro q hq
    rcases List.mem_map.mp hq with ⟨kv, hkv, rfl⟩
    exact (hP kv hkv).2.2
  have hps := psum_spec (d.map (fun kv => kv.2)) hdens
  have hlen : d.length ≠ 0 := by
    intro h
    exact hd (List.eq_nil_of_length_eq_zero h)
  have hval : (pdivNat (sumVals d) d.length).val = (sumVals d).val / (d.length : Rat) :=
    PyRat.val_pdivNat _ _ (by rw [sumVals]; exact hps.1) hlen
  have hsum := hps.2
  have hnn : 0 ≤ ((d.map (fun kv => kv.2)).map PyRat.val).sum := by
    apply List.sum_nonneg
    intro x hx
    rcases List.mem_map.mp hx with ⟨q, hq, rfl⟩
    rcases List.mem_map.mp hq with ⟨kv, hkv, rfl⟩
    exact (hP kv hkv).1
  have hub : ((d.map (fun kv => kv.2)).map PyRat.val).sum ≤
      ((d.map (fun kv => kv.2)).map PyRat.val).length • (1 : Rat) := by
    apply List.sum_le_card_nsmul
    intro x hx
    rcases List.mem_map.mp hx with ⟨q, hq, rfl⟩
    rcases List.mem_map.mp hq with ⟨kv, hkv, rfl⟩
    exact (hP kv hkv).2.1
  have hlenpos : (0 : Rat) < (d.length : Rat) := by
    have : 0 < d.length := Nat.pos_of_ne_zero hlen
    exact_mod_cast this
  have hub' : (sumVals d).val ≤ (d.length : Rat) := by
    rw [sumVals, hsum]
    simpa using hub
  constructor
  · rw [hval]
    apply div_nonneg _ hlenpos.le
    rw [sumVals, hsum]
    exact hnn
  · rw [hval, div_le_one hlenpos]
    exact hub'

/-- A report accepted by `_validate_evaluation_format` has every scores
value and the total within the unit interval. -/
theorem validate_format_bounds (v : JValue) (h : validate_evaluation_format v = true) :
    (∀ kv ∈ scoreEntries v, ∃ q, asNum kv.2 = some q ∧ 0 ≤ q.val ∧ q.val ≤ 1) ∧
    (∃ q, totalScoreOf v = some q ∧ 0 ≤ q.val ∧ q.val ≤ 1) := by
  unfold validate_evaluation_format at h
  split at h
  case h_2 => exact absurd h (by simp)
  case h_1 fields =>
    split at h
    case h_2 => exact absurd h (by simp)
    case h_1 scoresV totalV analysisV hS hT hA =>
      split at h
      case h_2 => exact absurd h (by simp)
      case h_1 _ sfs =>
        simp only [Bool.and_eq_true] at h
        obtain ⟨⟨⟨_, hall⟩, htot⟩, _⟩ := h
        constructor
        · intro kv hkv
          have hentries : scoreEntries (JValue.jobj fields) = sfs := by
            have hstep : scoreEntries (JValue.jobj fields) =
                (match objGet fields (("scores").toList) with
                 | some (.jobj s) => s
                 | _ => []) := rfl
            rw [hstep, hS]
          rw [hentries] at hkv
          have := List.all_eq_true.mp hall kv hkv
          revert this
          split
          · next q hq =>
            intro hb
            simp only [Bool.and_eq_true] at hb
            exact ⟨q, hq, pyLe_unit_bounds q hb.1 hb.2⟩
          · intro hb; exact absurd hb (by simp)
        · revert htot
          split
          · next q hq =>
            intro hb
            simp only [Bool.and_eq_true] at hb
            have hbounds := pyLe_unit_bounds q hb.1 hb.2
            refine ⟨q, ?_, hbounds⟩
            have htot' : totalScoreOf (JValue.jobj fields) =
                (objGet fields (("total_score").toList)).bind asNum := rfl
            rw [htot', hT]
            simpa using hq
          · intro hb; exact absurd hb (by simp)

/-- The fixed default report's scores and total are within bounds. -/
theorem default_evaluation_bounds :
    (∀ kv ∈ scoreEntries get_default_evaluation,
       ∃ q, asNum kv.2 = some q ∧ 0 ≤ q.val ∧ q.val ≤ 1) ∧
    (∃ q, totalScoreOf get_default_evaluation = some q ∧ 0 ≤ q.val ∧ q.val ≤ 1) := by
  have hhalf : (mkPy 1 2).val = (1 : Rat) / 2 := by
    have : mkPy 1 2 = ⟨1, 2⟩ := by decide
    rw [this]
    unfold PyRat.val
    norm_num
  have hb : 0 ≤ (mkPy 1 2).val ∧ (mkPy 1 2).val ≤ 1 := by
    rw [hhalf]
    norm_num
  constructor
  · intro kv hkv
    have : scoreEntries get_default_evaluation =
        [((("structure").toList), .jnum (mkPy 1 2)),
         ((("style").toList), .jnum (mkPy 1 2)),
         ((("error_handling").toList), .jnum (mkPy 1 2)),
         ((("readability").toList), .jnum (mkPy 1 2)),
         ((("performance").toList), .jnum (mkPy 1 2))] := rfl
    rw [this] at hkv
    fin_cases hkv <;> exact ⟨mkPy 1 2, rfl, hb⟩
  · exact ⟨mkPy 1 2, rfl, hb⟩

/-- The fallback extraction's report has every scores value and the
total within the unit interval. -/
theorem extract_scores_bounds (t : List Char) :
    (∀ kv ∈ scoreEntries (extract_scores_from_text t),
       ∃ q, asNum kv.2 = some q ∧ 0 ≤ q.val ∧ q.val ≤ 1) ∧
    (∃ q, totalScoreOf (extract_scores_from_text t) = some q ∧ 0 ≤ q.val ∧ q.val ≤ 1) := by
  by_cases he : (extractedScores t).isEmpty
  · have : extract_scores_from_text t = get_default_evaluation := by
      unfold extract_scores_from_text
      rw [if_pos he]
    rw [this]
    exact default_evaluation_bounds
  · have hne : extractedScores t ≠ [] := by
      intro h
      rw [h] at he
      exact he rfl
    have hrepr : extract_scores_from_text t =
        .jobj [((("scores").toList),
                .jobj ((extractedScores t).map (fun kv => (kv.1, JValue.jnum kv.2)))),
               ((("total_score").toList),
                .jnum (pdivNat (sumVals (extractedScores t)) (extractedScores t).length)),
               ((("analysis").toList), .jstr (extractAnalysis t))] := by
      unfold extract_scores_from_text
      rw [if_neg he]
    have hentries : scoreEntries (extract_scores_from_text t) =
        (extractedScores t).map (fun kv => (kv.1, JValue.jnum kv.2)) := by
      rw [hrepr]
      rfl
    have htotal : totalScoreOf (extract_scores_from_text t) =
        some (pdivNat (sumVals (extractedScores t)) (extractedScores t).length) := by
      rw [hrepr]
      rfl
    constructor
    · intro kv hkv
      rw [hentries] at hkv
      rcases List.mem_map.mp hkv with ⟨⟨k, q⟩, hq, rfl⟩
      have hOK := extractedScores_scoreOK t _ hq
      exact ⟨q, rfl, hOK.1, hOK.2.1⟩
    · refine ⟨_, htotal, ?_⟩
      exact mean_unit_bounds (extractedScores t) hne (extractedScores_scoreOK t)

set_option maxRecDepth 10000 in
/-- C3 counterexample.  The claim says that whenever the structured-JSON
parse path succeeds, the returned `total_score` equals the mean of the
five dimension scores.  The format validation checks only ranges and key
presence — never the mean — so the evaluation returns this report
verbatim with `total_score = 0.9` although the mean of its scores is
`0.5`. -/
theorem c3_total_score_not_mean :
    evaluate_code parseStubMismatch (Except.ok jsonTotalMismatchText) =
      some reportTotalMismatch ∧
    totalScoreOf reportTotalMismatch = some (mkPy 9 10) ∧
    scoresMean reportTotalMismatch = some (mkPy 1 2) ∧
    mkPy 9 10 ≠ mkPy 1 2 := by
  refine ⟨by rfl, by rfl, by rfl, by decide⟩

/-- C3 (amended): every report the evaluation returns has all its
scores values and its `total_score` within `[0, 1]`; the structured-JSON
path additionally guarantees the presence of the five canonical
dimensions (the validator checks ranges and presence), but it does not
force `total_score` to equal the mean of the scores. -/
theorem c3_scores_within_bounds
    (parse : List Char → Except Unit JValue) (reply : Except Unit (List Char)) (v : JValue)
    (h : evaluate_code parse reply = some v) :
    (∀ kv ∈ scoreEntries v, ∃ q, asNum kv.2 = some q ∧ 0 ≤ q.val ∧ q.val ≤ 1) ∧
    (∃ q, totalScoreOf v = some q ∧ 0 ≤ q.val ∧ q.val ≤ 1) := by
  unfold evaluate_code at h
  match reply with
  | .error _ =>
    simp only at h
    injection h with h
    subst h
    exact default_evaluation_bounds
  | .ok t =>
    simp only at h
    by_cases hc : 0 ≤ pyFind '{' t ∧ pyFind '{' t < pyRFind '}' t + 1
    · rw [if_pos hc] at h
      cases hp : parse (pySlice t (pyFind '{' t).toNat (pyRFind '}' t + 1).toNat) with
      | ok w =>
        rw [hp] at h
        simp only at h
        by_cases hv : validate_evaluation_format w
        · rw [if_pos hv] at h
          injection h with h
          subst h
          exact validate_format_bounds _ hv
        · rw [if_neg hv] at h
          exact absurd h (by simp)
      | error e =>
        rw [hp] at h
        simp only at h
        injection h with h
        subst h
        exact extract_scores_bounds t
    · rw [if_neg hc] at h
      exact absurd h (by simp)

/-- Witness for C3 (amended) at the default-report path (an exception
during the evaluation call). -/
theorem c3_scores_within_bounds_witness :
    (∀ kv ∈ scoreEntries get_default_evaluation,
       ∃ q, asNum kv.2 = some q ∧ 0 ≤ q.val ∧ q.val ≤ 1) ∧
    (∃ q, totalScoreOf get_default_evaluation = some q ∧ 0 ≤ q.val ∧ q.val ≤ 1) :=
  c3_scores_within_bounds (fun _ => Except.error ()) (Except.error ())
    get_default_evaluation rfl

set_option maxRecDepth 10000 in
set_option maxHeartbeats 1000000 in
/-- C7 counterexample.  The claim says `validate` strips one leading
"```python" marker and rejects whenever the stripped content has fewer
than 10 non-empty lines.  The code slices off only 8 of the marker's 9
characters (leaving a stray `n` line) and compares `len(code.split('\n'))`
— all lines, empty ones included — against 10.  On this input the
content has 8 non-empty lines, so the claim demands rejection, yet
`validate_code` accepts it (the stray `n` plus two empty lines push the
total line count to 11). -/
theorem c7_accepts_with_few_nonempty_lines :
    validate_code (fun _ => true) fencedSparseExample = true ∧
    spec_nonempty_lines (spec_strip_fence fencedSparseExample) < 10 := by
  refine ⟨by decide, by decide⟩

/-- C7 (amended): after `strip()`, a leading "```python" loses only its
first 8 characters (the final `n` stays, as the concrete equation
shows), a trailing "```" is removed, and `validate_code` returns `false`
whenever the resulting stripped content has fewer than 10 lines in
total, counting empty lines. -/
theorem c7_rejects_fewer_than_ten_lines :
    stripMarkers (("```python\nabc").toList) = ("n\nabc").toList ∧
    ∀ (syn : List Char → Bool) (code : List Char),
      (splitNL (pyStrip (stripMarkers code))).length < 10 →
      validate_code syn code = false := by
  refine ⟨by decide, ?_⟩
  intro syn code h
  unfold validate_code
  by_cases he : code.isEmpty
  · rw [if_pos he]
  · rw [if_neg he]
    show (if (splitNL (pyStrip (stripMarkers code))).length < 10 then false else _) = false
    rw [if_pos h]

/-- Witness for C7 (amended) at a short input. -/
theorem c7_rejects_fewer_than_ten_lines_witness :
    (splitNL (pyStrip (stripMarkers (("short").toList)))).length < 10 ∧
    validate_code (fun _ => true) (("short").toList) = false :=
  ⟨by decide,
   c7_rejects_fewer_than_ten_lines.2 (fun _ => true) (("short").toList) (by decide)⟩

/-! ## C8 — the deny-list -/

theorem hasPrefixSeq_iff : ∀ (pat s : List Char),
    hasPrefixSeq pat s = true ↔ ∃ t, s = pat ++ t := by
  intro pat
  induction pat with
  | nil => intro s; simp [hasPrefixSeq]
  | cons p ps ih =>
    intro s
    cases s with
    | nil =>
      simp [hasPrefixSeq]
    | cons c cs =>
      simp only [hasPrefixSeq, Bool.and_eq_true, beq_iff_eq]
      constructor
      · rintro ⟨rfl, h⟩
        rcases (ih cs).mp h with ⟨t, rfl⟩
        exact ⟨t, rfl⟩
      · rintro ⟨t, ht⟩
        injection ht with h1 h2
        subst h1
        exact ⟨rfl, (ih cs).mpr ⟨t, h2⟩⟩

theorem inStr_iff : ∀ (pat s : List Char), inStr pat s = true ↔ OccursIn pat s := by
  intro pat s
  induction s with
  | nil =>
    simp only [inStr, List.isEmpty_iff, OccursIn]
    constructor
    · rintro rfl
      exact ⟨[], [], rfl⟩
    · rintro ⟨a, b, h⟩
      have := congrArg List.length h
      simp at this
      exact List.eq_nil_of_length_eq_zero (by omega)
  | cons c cs ih =>
    simp only [inStr, Bool.or_eq_true]
    constructor
    · rintro (h | h)
      · rcases (hasPrefixSeq_iff pat (c :: cs)).mp h with ⟨t, ht⟩
        exact ⟨[], t, by simpa using ht⟩
      · rcases ih.mp h with ⟨a, b, hab⟩
        exact ⟨c :: a, b, by simp [hab]⟩
    · rintro ⟨a, b, hab⟩
      cases a with
      | nil =>
        left
        exact (hasPrefixSeq_iff pat (c :: cs)).mpr ⟨b, by simpa using hab⟩
      | cons a' as =>
        right
        apply ih.mpr
        injection hab with h1 h2
        exact ⟨as, b, h2⟩

theorem occurs_reverse {d s : List Char} (h : OccursIn d s) :
    OccursIn d.reverse s.reverse := by
  rcases h with ⟨a, b, rfl⟩
  exact ⟨b.reverse, a.reverse, by simp⟩

theorem occurs_trimLeft {d : List Char} (hne : d ≠ [])
    (hws : ∀ c ∈ d, pyIsSpace c = false) :
    ∀ {s : List Char}, OccursIn d s → OccursIn d (trimLeftPy s) := by
  intro s
  induction s with
  | nil =>
    rintro ⟨a, b, hab⟩
    have := congrArg List.length hab
    simp at this
    exact absurd (List.eq_nil_of_length_eq_zero (by omega)) hne
  | cons c cs ih =>
    rintro ⟨a, b, hab⟩
    by_cases hc : pyIsSpace c = true
    · have hstep : trimLeftPy (c :: cs) = trimLeftPy cs := by
        simp [trimLeftPy, List.dropWhile, hc]
      rw [hstep]
      cases a with
      | nil =>
        obtain ⟨c0, d', rfl⟩ : ∃ c0 d', d = c0 :: d' := by
          cases d with
          | nil => exact absurd rfl hne
          | cons x xs => exact ⟨x, xs, rfl⟩
        injection hab with h1 h2
        subst h1
        exact absurd hc (by simp [hws c (List.mem_cons_self _ _)])
      | cons a' as =>
        injection hab with h1 h2
        exact ih ⟨as, b, h2⟩
    · have hstep : trimLeftPy (c :: cs) = c :: cs := by
        simp only [trimLeftPy, List.dropWhile]
        simp [hc]
      rw [hstep]
      exact ⟨a, b, hab⟩

theorem occurs_pyStrip {d : List Char} (hne : d ≠ [])
    (hws : ∀ c ∈ d, pyIsSpace c = false)
    {s : List Char} (hocc : OccursIn d s) : OccursIn d (pyStrip s) := by
  have hne' : d.reverse ≠ [] := by
    simpa using hne
  have hws' : ∀ c ∈ d.reverse, pyIsSpace c = false := by
    intro c hc
    exact hws c (List.mem_reverse.mp hc)
  have h1 : OccursIn d (trimLeftPy s) := occurs_trimLeft hne hws hocc
  have h2 : OccursIn d.reverse (trimLeftPy s).reverse := occurs_reverse h1
  have h3 : OccursIn d.reverse (trimLeftPy (trimLeftPy s).reverse) :=
    occurs_trimLeft hne' hws' h2
  have h4 : OccursIn d.reverse.reverse (trimLeftPy (trimLeftPy s).reverse).reverse :=
    occurs_reverse h3
  simpa [pyStrip, trimLeftPy] using h4

/-- An occurrence of `d` in `p ++ t` whose head character cannot lie in
`p` lies entirely in `t`. -/
theorem occurs_after_prefix (p t d : List Char)
    (hocc : OccursIn d (p ++ t)) (hne : d ≠ [])
    (hhead : ∀ c, d.head? = some c → c ∉ p) : OccursIn d t := by
  obtain ⟨a, b, heq⟩ := hocc
  by_cases hlen : p.length ≤ a.length
  · refine ⟨a.drop p.length, b, ?_⟩
    have h1 : (p ++ t).drop p.length = t := by simp
    rw [heq, List.append_assoc, List.drop_append_eq_append_drop,
        Nat.sub_eq_zero_of_le hlen, List.drop_zero] at h1
    rw [← h1, List.append_assoc]
  · push_neg at hlen
    obtain ⟨c, d', rfl⟩ : ∃ c d', d = c :: d' := by
      cases d with
      | nil => exact absurd rfl hne
      | cons x xs => exact ⟨x, xs, rfl⟩
    have hc : (p ++ t)[a.length]? = some c := by
      rw [heq, List.append_assoc, List.getElem?_append_right le_rfl]
      simp
    rw [List.getElem?_append_left hlen] at hc
    exact absurd (List.getElem?_mem hc) (hhead c rfl)

/-- An occurrence of a deny-list word in a string starting with the
9-character marker "```python" survives the source's `code[8:]` slice:
the word cannot start inside the 8 dropped characters. -/
theorem occurs_drop8_fence (s d : List Char)
    (hpre : hasPrefixSeq (("```python").toList) s = true)
    (hocc : OccursIn d s) (hne : d ≠ [])
    (hhead : ∀ c, d.head? = some c → c ∉ (['\x60', 'p', 'y', 't', 'h'] : List Char))
    (hone : d.head? = some 'o' → 2 ≤ d.length)
    (hon : d.head? = some 'o' → ∀ c2, d[1]? = some c2 → c2 ≠ 'n') :
    OccursIn d (s.drop 8) := by
  obtain ⟨t, hs⟩ := (hasPrefixSeq_iff _ _).mp hpre
  obtain ⟨a, b, heq⟩ := hocc
  by_cases hlen : 8 ≤ a.length
  · refine ⟨a.drop 8, b, ?_⟩
    rw [heq, List.append_assoc, List.drop_append_eq_append_drop,
        Nat.sub_eq_zero_of_le hlen, List.drop_zero, List.append_assoc]
  · push_neg at hlen
    exfalso
    obtain ⟨c, d', rfl⟩ : ∃ c d', d = c :: d' := by
      cases d with
      | nil => exact absurd rfl hne
      | cons x xs => exact ⟨x, xs, rfl⟩
    have hc : s[a.length]? = some c := by
      rw [heq, List.append_assoc, List.getElem?_append_right le_rfl]
      simp
    have hlen9 : (("```python").toList).length = 9 := rfl
    have hfget : ∀ k, k ≤ 8 → s[k]? = (("```python").toList)[k]? := by
      intro k hk
      rw [hs, List.getElem?_append_left (by rw [hlen9]; omega)]
    by_cases h7 : a.length ≤ 6
    · have hmem : ∀ k, k ≤ 6 → ∀ x : Char, (("```python").toList)[k]? = some x →
          x ∈ (['\x60', 'p', 'y', 't', 'h'] : List Char) := by decide
      rw [hfget a.length (by omega)] at hc
      exact hhead c rfl (hmem a.length h7 c hc)
    · have ha7 : a.length = 7 := by omega
      rw [hfget a.length (by omega), ha7] at hc
      have : c = 'o' := by
        have : (("```python").toList)[7]? = some 'o' := by decide
        rw [this] at hc
        injection hc with hc
        exact hc.symm
      subst this
      have h2 := hone rfl
      obtain ⟨c2, d'', rfl⟩ : ∃ c2 d'', d' = c2 :: d'' := by
        cases d' with
        | nil => simp at h2
        | cons x xs => exact ⟨x, xs, rfl⟩
      have hc2 : s[8]? = some c2 := by
        rw [heq, List.append_assoc, List.getElem?_append_right (by omega : a.length ≤ 8), ha7]
        simp
      rw [hfget 8 le_rfl] at hc2
      have hn : (("```python").toList)[8]? = some 'n' := by decide
      rw [hn] at hc2
      injection hc2 with hc2
      exact hon rfl c2 (by simp) hc2.symm

/-- An occurrence of a backtick-free word in a string ending with "```"
survives the source's `code[:-3]` slice. -/
theorem occurs_dropTicks (s d : List Char)
    (hsuf : hasSuffixSeq (("```").toList) s = true)
    (hocc : OccursIn d s) (hne : d ≠ []) (htick : '\x60' ∉ d) :
    OccursIn d (s.take (s.length - 3)) := by
  have hpre : hasPrefixSeq ((("```").toList).reverse) s.reverse = true := hsuf
  obtain ⟨t, hrev⟩ := (hasPrefixSeq_iff _ _).mp hpre
  have hs : s = t.reverse ++ (("```").toList) := by
    have h := congrArg List.reverse hrev
    simp only [List.reverse_reverse, List.reverse_append] at h
    simpa using h
  have htake : s.take (s.length - 3) = t.reverse := by
    rw [hs]
    have hlen : (t.reverse ++ (("```").toList)).length - 3 = t.reverse.length := by
      simp
    rw [hlen]
    exact List.take_left _ _
  rw [htake]
  have hoccrev : OccursIn d.reverse ((("```").toList) ++ t) := by
    have h := occurs_reverse hocc
    rw [hrev] at h
    exact h
  have hne' : d.reverse ≠ [] := by simpa using hne
  have hafter := occurs_after_prefix (("```").toList) t d.reverse hoccrev hne' ?_
  · have h := occurs_reverse hafter
    simpa using h
  · intro c hc hmem
    have hcd : c ∈ d := by
      have hrev : c ∈ d.reverse := by
        cases hd : d.reverse with
        | nil => rw [hd] at hc; exact absurd hc (by simp)
        | cons x xs =>
          rw [hd] at hc
          injection hc with hc
          rw [hc]
          exact List.mem_cons_self _ _
      exact List.mem_reverse.mp hrev
    have hc' : c = '\x60' := by
      have hm3 : (("```").toList) = ['\x60', '\x60', '\x60'] := rfl
      rw [hm3] at hmem
      simpa using hmem
    rw [hc'] at hcd
    exact htick hcd

/-- An occurrence of a deny-list-shaped word anywhere in the candidate
content survives the whole fence-stripping prelude of `validate_code`. -/
theorem occurs_stripMarkers (d code : List Char)
    (hocc : OccursIn d code) (hne : d ≠ [])
    (hws : ∀ c ∈ d, pyIsSpace c = false)
    (htick : '\x60' ∉ d)
    (hhead : ∀ c, d.head? = some c → c ∉ (['\x60', 'p', 'y', 't', 'h'] : List Char))
    (hone : d.head? = some 'o' → 2 ≤ d.length)
    (hon : d.head? = some 'o' → ∀ c2, d[1]? = some c2 → c2 ≠ 'n') :
    OccursIn d (stripMarkers code) := by
  have h1 : OccursIn d (pyStrip code) := occurs_pyStrip hne hws hocc
  have key2 : OccursIn d (if hasPrefixSeq (("```python").toList) (pyStrip code) = true
      then (pyStrip code).drop 8 else pyStrip code) := by
    split
    · next hp => exact occurs_drop8_fence _ d hp h1 hne hhead hone hon
    · exact h1
  have key3 : ∀ x : List Char, OccursIn d x →
      OccursIn d (if hasSuffixSeq (("```").toList) x = true
                  then x.take (x.length - 3) else x) := by
    intro x hx
    split
    · next hq => exact occurs_dropTicks x d hq hx hne htick
    · exact hx
  exact occurs_pyStrip hne hws (key3 _ key2)

/-- C8: a candidate containing any deny-listed substring — anywhere,
string literals and comments included — is always rejected by
`validate_code`, and the improvement step then leaves the project state
and the version store untouched (the loop proceeds with the previous
`current_code`). -/
theorem c8_denylist_rejected_and_state_kept
    (syn : List Char → Bool) (code : List Char) (d : List Char)
    (hd : d ∈ dangerous_imports) (hocc : OccursIn d code) :
    validate_code syn code = false ∧
    ∀ (autoSave fmInit pathsInit : Bool) (o : SaveOutcome) (st : ProjectState) (fs : FS),
      improveStep syn autoSave fmInit pathsInit o st fs (some code) = (st, fs) := by
  have hside : ∀ d ∈ dangerous_imports,
      d ≠ [] ∧ (∀ c ∈ d, pyIsSpace c = false) ∧ ¬('\x60' ∈ d) ∧
      (∀ c, d.head? = some c → ¬(c ∈ (['\x60', 'p', 'y', 't', 'h'] : List Char))) ∧
      (d.head? = some 'o' → 2 ≤ d.length) ∧
      (d.head? = some 'o' → ∀ c2, d[1]? = some c2 → c2 ≠ 'n') := by decide
  obtain ⟨hne, hws, htick, hhead, hone, hon⟩ := hside d hd
  have hstrip := occurs_stripMarkers d code hocc hne hws htick hhead hone hon
  have hin : inStr d (stripMarkers code) = true := (inStr_iff _ _).mpr hstrip
  have hcode : ¬ code.isEmpty = true := by
    rcases hocc with ⟨a, b, hab⟩
    intro hemp
    rw [List.isEmpty_iff] at hemp
    rw [hemp] at hab
    have := congrArg List.length hab
    simp at this
    exact hne (List.eq_nil_of_length_eq_zero (by omega))
  have hany : dangerous_imports.any (fun imp => inStr imp (stripMarkers code)) = true :=
    List.any_eq_true.mpr ⟨d, hd, hin⟩
  have hval : validate_code syn code = false := by
    unfold validate_code
    rw [if_neg hcode]
    show (if (splitNL (pyStrip (stripMarkers code))).length < 10 then false
          else if required_components.any (fun comp => !(inStr comp (stripMarkers code))) then false
          else if !(syn (stripMarkers code)) then false
          else if dangerous_imports.any (fun imp => inStr imp (stripMarkers code)) then false
          else true) = false
    split_ifs with h1 h2 h3 <;> rfl
  refine ⟨hval, ?_⟩
  intro autoSave fmInit pathsInit o st fs
  show (if validate_code syn code = true
        then save_current_version autoSave fmInit pathsInit o
               { st with current_code := code } fs
        else (st, fs)) = (st, fs)
  rw [hval]
  simp

/-- Witness for C8 at a concrete candidate carrying `subprocess`. -/
theorem c8_denylist_rejected_and_state_kept_witness :
    ("subprocess").toList ∈ dangerous_imports ∧
    OccursIn (("subprocess").toList) (("import subprocess").toList) ∧
    validate_code (fun _ => true) (("import subprocess").toList) = false ∧
    improveStep (fun _ => true) true true true SaveOutcome.ok (initState []) emptyFS
      (some (("import subprocess").toList)) = (initState [], emptyFS) := by
  have hocc : OccursIn (("subprocess").toList) (("import subprocess").toList) :=
    ⟨("import ").toList, [], by decide⟩
  have h := c8_denylist_rejected_and_state_kept (fun _ => true)
    (("import subprocess").toList) (("subprocess").toList) (by decide) hocc
  exact ⟨by decide, hocc, h.1, h.2 true true true SaveOutcome.ok (initState []) emptyFS⟩

/-! ## C4 — the version counter and the on-disk directories -/

theorem setCheckpoint_setMain_spec (v : Nat) (c : List Char) (cp : Checkpoint) (fs : FS) :
    ∀ k, (setCheckpoint v cp (setMain v c fs)) k =
      if k = v then some ⟨some c, some cp⟩ else fs k := by
  intro k
  unfold setCheckpoint setMain
  by_cases hk : k = v <;> simp [hk]

/-- One save attempt preserves the store invariant; a successful one
advances the version by one, a failed one leaves it unchanged. -/
theorem save_step_inv (o : SaveOutcome) (st : ProjectState) (fs : FS)
    (hc : st.current_code ≠ [])
    (hm : ∀ k, k < st.version → ∃ c, mainOf fs k = some c ∧ c ≠ [])
    (hd : ∀ k, (fs k).isSome = true → k ≤ st.version) :
    ((save_current_version true true true o st fs).1.version =
       st.version + (if o = SaveOutcome.ok then 1 else 0)) ∧
    (∀ k, k < (save_current_version true true true o st fs).1.version →
       ∃ c, mainOf (save_current_version true true true o st fs).2 k = some c ∧ c ≠ []) ∧
    (∀ k, ((save_current_version true true true o st fs).2 k).isSome = true →
       k ≤ (save_current_version true true true o st fs).1.version) ∧
    (o = SaveOutcome.ok →
       ∀ k, ((save_current_version true true true o st fs).2 k).isSome = true →
       k < (save_current_version true true true o st fs).1.version) := by
  cases o with
  | ok =>
    have hv : (save_current_version true true true SaveOutcome.ok st fs).1.version =
        st.version + 1 := rfl
    have hf : ∀ k, (save_current_version true true true SaveOutcome.ok st fs).2 k =
        if k = st.version then
          some ⟨some st.current_code,
                some ⟨some st.version, some st.history, some st.user_feedback⟩⟩
        else fs k := fun k =>
      setCheckpoint_setMain_spec st.version st.current_code
        ⟨some st.version, some st.history, some st.user_feedback⟩ fs k
    refine ⟨by rw [hv]; simp, ?_, ?_, ?_⟩
    · intro k hk
      rw [hv] at hk
      by_cases hkv : k = st.version
      · refine ⟨st.current_code, ?_, hc⟩
        unfold mainOf
        rw [hf k, if_pos hkv]
        rfl
      · have hk' : k < st.version := by omega
        rcases hm k hk' with ⟨c, hcm, hcne⟩
        refine ⟨c, ?_, hcne⟩
        unfold mainOf
        rw [hf k, if_neg hkv]
        exact hcm
    · intro k hsome
      rw [hv]
      by_cases hkv : k = st.version
      · omega
      · rw [hf k, if_neg hkv] at hsome
        have := hd k hsome
        omega
    · intro _ k hsome
      rw [hv]
      by_cases hkv : k = st.version
      · omega
      · rw [hf k, if_neg hkv] at hsome
        have := hd k hsome
        omega
  | failMkdir =>
    refine ⟨?_, hm, hd, fun h => absurd h (by simp)⟩
    show st.version = st.version + (if SaveOutcome.failMkdir = SaveOutcome.ok then 1 else 0)
    simp
  | failWriteMain =>
    have hv : (save_current_version true true true SaveOutcome.failWriteMain st fs).1.version =
        st.version := rfl
    have hf : ∀ k, (save_current_version true true true SaveOutcome.failWriteMain st fs).2 k =
        if k = st.version then some ((fs st.version).getD ⟨none, none⟩) else fs k :=
      fun k => rfl
    refine ⟨by rw [hv]; simp, ?_, ?_, fun h => absurd h (by simp)⟩
    · intro k hk
      rw [hv] at hk
      rcases hm k hk with ⟨c, hcm, hcne⟩
      refine ⟨c, ?_, hcne⟩
      unfold mainOf
      rw [hf k, if_neg (by omega : ¬ k = st.version)]
      exact hcm
    · intro k hsome
      rw [hv]
      by_cases hkv : k = st.version
      · omega
      · rw [hf k, if_neg hkv] at hsome
        exact hd k hsome
  | failCheckpoint =>
    have hv : (save_current_version true true true SaveOutcome.failCheckpoint st fs).1.version =
        st.version := rfl
    have hf : ∀ k, (save_current_version true true true SaveOutcome.failCheckpoint st fs).2 k =
        if k = st.version then
          some ⟨some st.current_code, ((fs st.version).getD ⟨none, none⟩).checkpoint⟩
        else fs k :=
      fun k => rfl
    refine ⟨by rw [hv]; simp, ?_, ?_, fun h => absurd h (by simp)⟩
    · intro k hk
      rw [hv] at hk
      rcases hm k hk with ⟨c, hcm, hcne⟩
      refine ⟨c, ?_, hcne⟩
      unfold mainOf
      rw [hf k, if_neg (by omega : ¬ k = st.version)]
      exact hcm
    · intro k hsome
      rw [hv]
      by_cases hkv : k = st.version
      · omega
      · rw [hf k, if_neg hkv] at hsome
        exact hd k hsome

/-- The run invariant: the version counter counts the successful saves,
every directory below it holds a non-empty main file, no directory lies
above it, and when the last attempt succeeded no directory lies at it
either. -/
theorem runSaves_inv :
    ∀ (attempts : List (List Char × SaveOutcome)) (st : ProjectState) (fs : FS),
    (∀ a ∈ attempts, a.1 ≠ []) →
    (∀ k, k < st.version → ∃ c, mainOf fs k = some c ∧ c ≠ []) →
    (∀ k, (fs k).isSome = true → k ≤ st.version) →
    ((runSaves attempts st fs).1.version = st.version + countOk attempts) ∧
    (∀ k, k < (runSaves attempts st fs).1.version →
       ∃ c, mainOf (runSaves attempts st fs).2 k = some c ∧ c ≠ []) ∧
    (∀ k, ((runSaves attempts st fs).2 k).isSome = true →
       k ≤ (runSaves attempts st fs).1.version) ∧
    (∀ pre c, attempts = pre ++ [(c, SaveOutcome.ok)] →
       ∀ k, ((runSaves attempts st fs).2 k).isSome = true →
       k < (runSaves attempts st fs).1.version) := by
  intro attempts
  induction attempts with
  | nil =>
    intro st fs _ hm hd
    refine ⟨by simp [runSaves, countOk], hm, hd, ?_⟩
    intro pre c h
    exact absurd h (by simp)
  | cons a rest ih =>
    intro st fs hne hm hd
    obtain ⟨c₀, o⟩ := a
    have hc₀ : c₀ ≠ [] := hne (c₀, o) (List.mem_cons_self _ _)
    have hrest : ∀ x ∈ rest, x.1 ≠ [] := fun x hx => hne x (List.mem_cons_of_mem _ hx)
    set st' : ProjectState := { st with current_code := c₀ } with hst'
    have hm' : ∀ k, k < st'.version → ∃ c, mainOf fs k = some c ∧ c ≠ [] := hm
    have hd' : ∀ k, (fs k).isSome = true → k ≤ st'.version := hd
    have hstep := save_step_inv o st' fs hc₀ hm' hd'
    have hrun : runSaves ((c₀, o) :: rest) st fs =
        runSaves rest (save_current_version true true true o st' fs).1
          (save_current_version true true true o st' fs).2 := rfl
    have hih := ih (save_current_version true true true o st' fs).1
      (save_current_version true true true o st' fs).2 hrest hstep.2.1 hstep.2.2.1
    have hcount : countOk ((c₀, o) :: rest) =
        countOk rest + (if o = SaveOutcome.ok then 1 else 0) := by
      unfold countOk
      rw [List.countP_cons]
      simp
    refine ⟨?_, ?_, ?_, ?_⟩
    · rw [hrun, hih.1, hstep.1, hcount]
      have hv' : st'.version = st.version := rfl
      rw [hv']
      omega
    · rw [hrun]
      exact hih.2.1
    · rw [hrun]
      exact hih.2.2.1
    · intro pre c h k
      cases pre with
      | nil =>
        simp only [List.nil_append] at h
        injection h with h1 h2
        injection h1 with hc1 ho1
        subst h2
        subst ho1
        rw [hrun]
        intro hsome
        have hlt := hstep.2.2.2 rfl k
        have : (runSaves [] (save_current_version true true true SaveOutcome.ok st' fs).1
            (save_current_version true true true SaveOutcome.ok st' fs).2) =
            ((save_current_version true true true SaveOutcome.ok st' fs).1,
             (save_current_version true true true SaveOutcome.ok st' fs).2) := rfl
        rw [this] at hsome ⊢
        exact hlt hsome
      | cons p pre' =>
        rw [List.cons_append] at h
        injection h with h1 h2
        rw [hrun]
        exact hih.2.2.2 pre' c h2 k

/-- C4: starting from a fresh controller and an empty output root, after
a sequence of save attempts whose last attempt succeeds and whose saved
contents are non-empty, the in-memory version counter equals the number
of successful saves, exactly the directories `v0 … v(N-1)` exist, each
holds a non-empty main file, and (independently of the run) a failed
save never increments the version counter, so a retried save reuses the
same version number. -/
theorem c4_version_store_invariant
    (attempts : List (List Char × SaveOutcome))
    (pre : List (List Char × SaveOutcome)) (c p : List Char)
    (hne : ∀ a ∈ attempts, a.1 ≠ [])
    (hlast : attempts = pre ++ [(c, SaveOutcome.ok)]) :
    ((runSaves attempts (initState p) emptyFS).1.version = countOk attempts) ∧
    (∀ k, ((runSaves attempts (initState p) emptyFS).2 k).isSome = true ↔
       k < (runSaves attempts (initState p) emptyFS).1.version) ∧
    (∀ k, k < (runSaves attempts (initState p) emptyFS).1.version →
       ∃ cc, mainOf (runSaves attempts (initState p) emptyFS).2 k = some cc ∧ cc ≠ []) ∧
    (∀ (o : SaveOutcome) (st : ProjectState) (fs : FS), o ≠ SaveOutcome.ok →
       (save_current_version true true true o st fs).1.version = st.version) := by
  have h := runSaves_inv attempts (initState p) emptyFS hne
    (by intro k hk; simp [initState] at hk) (by intro k hk; simp [emptyFS] at hk)
  obtain ⟨hver, hm, hd, hstrict⟩ := h
  refine ⟨by rw [hver]; simp [initState], ?_, hm, ?_⟩
  · intro k
    constructor
    · exact hstrict pre c hlast k
    · intro hk
      rcases hm k hk with ⟨cc, hcc, _⟩
      unfold mainOf at hcc
      cases hfk : (runSaves attempts (initState p) emptyFS).2 k with
      | none => rw [hfk] at hcc; exact absurd hcc (by simp)
      | some dd => simp
  · intro o st fs ho
    cases o with
    | ok => exact absurd rfl ho
    | failMkdir => rfl
    | failWriteMain => rfl
    | failCheckpoint => rfl

/-- Witness for C4 on a run of three attempts: two successful saves
around a checkpoint-write failure that is retried at the same version. -/
theorem c4_version_store_invariant_witness :
    (∀ a ∈ ([((("ab").toList), SaveOutcome.ok),
             ((("c").toList), SaveOutcome.failCheckpoint),
             ((("de").toList), SaveOutcome.ok)] : List (List Char × SaveOutcome)),
       a.1 ≠ []) ∧
    ((runSaves [((("ab").toList), SaveOutcome.ok),
                ((("c").toList), SaveOutcome.failCheckpoint),
                ((("de").toList), SaveOutcome.ok)] (initState []) emptyFS).1.version = 2) ∧
    (∀ k, ((runSaves [((("ab").toList), SaveOutcome.ok),
                      ((("c").toList), SaveOutcome.failCheckpoint),
                      ((("de").toList), SaveOutcome.ok)] (initState []) emptyFS).2 k).isSome
            = true ↔ k < 2) := by
  have h := c4_version_store_invariant
    [((("ab").toList), SaveOutcome.ok),
     ((("c").toList), SaveOutcome.failCheckpoint),
     ((("de").toList), SaveOutcome.ok)]
    [((("ab").toList), SaveOutcome.ok), ((("c").toList), SaveOutcome.failCheckpoint)]
    (("de").toList) [] (by decide) rfl
  have hv : (runSaves [((("ab").toList), SaveOutcome.ok),
      ((("c").toList), SaveOutcome.failCheckpoint),
      ((("de").toList), SaveOutcome.ok)] (initState []) emptyFS).1.version = 2 := by
    rw [h.1]
    decide
  refine ⟨by decide, hv, ?_⟩
  intro k
  rw [← hv]
  exact h.2.1 k
